import Mathlib

/-!
# cardresize: border detection and composition

A shallow embedding of `resize.go` (package `main` of `forana/cardresize`) and
theorems about it.

Modelling conventions.

* Go `int` is modelled by `Int`; image coordinates never approach 64-bit limits.
* Go `float64` quantities (the command line configuration, the aspect ratio, the
  DPI) are modelled by exact rationals `ℚ`; rounding of float operations and
  the non-finite values are not modelled, except in `aspectCorrect64`, the
  aspect correction with each float64 operation rounded by `f64`, for the
  property that depends on the rounding.  `colorDistance` is the square root
  of a rational, so it is represented by its square, and the only use the
  program makes of it, the test `dist >= edgeThreshold`, is modelled exactly
  on the squares (`distGE`, justified over the reals by `distGE_iff_real`).
* A pixel colour is a `color.RGBA` value: four 8-bit channels.  The
  `color.Color` interface is its method `RGBA()`.
* An `image.Image` is its `Bounds()` and its total function `At(x, y)`.
* A Go string is its sequence of bytes, written as a list of characters, one
  character per byte.
* A loop with no static bound on its number of iterations takes a fuel
  argument; `none` means the fuel ran out.  A Go run-time panic is an `Err`
  value of the `panic...` kind.
-/

namespace CardResize

/-! ## Errors -/

/-- Errors returned by the program, and the run-time panics it can raise. -/
inductive Err where
  /-- The `fmt.Errorf` of `detectEdge` (resize.go:203). -/
  | edgeNotFound
  /-- The `fmt.Errorf` of `parseColor` (resize.go:247). -/
  | invalidColorLength
  /-- The `strconv.ErrSyntax` of `strconv.ParseUint`. -/
  | parseUintSyntax
  /-- The `strconv.ErrRange` of `strconv.ParseUint`. -/
  | parseUintRange
  /-- Run-time panic: integer divide by zero. -/
  | panicDivideByZero
  /-- Run-time panic: slice bounds out of range. -/
  | panicSliceBounds
  deriving DecidableEq, Repr

deriving instance DecidableEq for Except

/-! ## Colours (`image/color`) -/

/-- Go `uint8(n)`. -/
def uint8 (n : Nat) : Fin 256 := ⟨n % 256, Nat.mod_lt n (by decide)⟩

/-- Go `color.RGBA`: four 8-bit channels. -/
structure Color where
  R : Fin 256
  G : Fin 256
  B : Fin 256
  A : Fin 256
  deriving DecidableEq, Repr

/-- Go `color.RGBA.RGBA()`: each channel `v` widened to 16 bits by
`v |= v << 8`. -/
def Color.RGBA (c : Color) : Nat × Nat × Nat × Nat :=
  (c.R.val ||| (c.R.val <<< 8), c.G.val ||| (c.G.val <<< 8),
   c.B.val ||| (c.B.val <<< 8), c.A.val ||| (c.A.val <<< 8))

/-- Function `rgba` (resize.go:171-179). -/
def rgba (c : Color) : Color :=
  let (r, g, b, _) := c.RGBA
  { R := uint8 (r >>> 8), G := uint8 (g >>> 8), B := uint8 (b >>> 8), A := 0xFF }

/-- Function `averageColor` (resize.go:155-169).  The three sums are `uint64`; the
division by `uint64(len(colors))` panics on the empty slice. -/
def averageColor (colors : List Color) : Except Err Color :=
  let sr := colors.foldl (fun s c => (s + c.RGBA.1) % 2 ^ 64) 0
  let sg := colors.foldl (fun s c => (s + c.RGBA.2.1) % 2 ^ 64) 0
  let sb := colors.foldl (fun s c => (s + c.RGBA.2.2.1) % 2 ^ 64) 0
  if colors.length = 0 then .error .panicDivideByZero
  else .ok { R := uint8 ((sr / colors.length) >>> 8),
             G := uint8 ((sg / colors.length) >>> 8),
             B := uint8 ((sb / colors.length) >>> 8),
             A := 0xFF }

/-- Function `average` (resize.go:181-187): Go integer division truncates
toward zero, and panics on an empty argument list. -/
def average (ints : List Int) : Except Err Int :=
  if ints.length = 0 then .error .panicDivideByZero
  else .ok ((ints.foldl (fun s n => s + n) 0).tdiv ints.length)

/-- The square of `mc` (resize.go:148): `mc = sqrt(255^2 * 3)`. -/
def mcSq : Nat := 255 ^ 2 * 3

/-- The sum under the square root of `colorDistance` (resize.go:152). -/
def colorDistanceNum (c1 c2 : Color) : Nat :=
  let r1 := rgba c1
  let r2 := rgba c2
  (((r2.R.val : Int) - r1.R.val) ^ 2 + ((r2.G.val : Int) - r1.G.val) ^ 2
    + ((r2.B.val : Int) - r1.B.val) ^ 2).toNat

/-- The square of `colorDistance` (resize.go:150-153):
`colorDistance c1 c2 = sqrt (colorDistanceSq c1 c2)`. -/
def colorDistanceSq (c1 c2 : Color) : ℚ := (colorDistanceNum c1 c2 : ℚ) / mcSq

/-- The test `colorDistance(c1, c2) >= t` (resize.go:195), on squares, in exact
arithmetic.  The code compares the float64 value of sqrt(num) / mc with t, so
the two can differ where t is within a rounding error of the distance; they
agree at the distances 0 and 1, which float64 computes exactly. -/
def distGE (c1 c2 : Color) (t : ℚ) : Prop := t ≤ 0 ∨ t * t ≤ colorDistanceSq c1 c2

instance (c1 c2 : Color) (t : ℚ) : Decidable (distGE c1 c2 t) :=
  inferInstanceAs (Decidable (_ ∨ _))

/-! ## Geometry and images (`image`) -/

/-- Go `image.Point`. -/
structure Point where
  X : Int
  Y : Int
  deriving DecidableEq, Repr

/-- Go `image.Rectangle`. -/
structure Rectangle where
  Min : Point
  Max : Point
  deriving DecidableEq, Repr

/-- Go `image.Rect`: the rectangle with the coordinates swapped where needed
so that `Min ≤ Max` on each axis. -/
def Rect (x0 y0 x1 y1 : Int) : Rectangle :=
  let (x0, x1) := if x0 > x1 then (x1, x0) else (x0, x1)
  let (y0, y1) := if y0 > y1 then (y1, y0) else (y0, y1)
  ⟨⟨x0, y0⟩, ⟨x1, y1⟩⟩

/-- Go `Point.In`. -/
def Point.In (p : Point) (r : Rectangle) : Prop :=
  r.Min.X ≤ p.X ∧ p.X < r.Max.X ∧ r.Min.Y ≤ p.Y ∧ p.Y < r.Max.Y

instance (p : Point) (r : Rectangle) : Decidable (p.In r) :=
  inferInstanceAs (Decidable (_ ∧ _))

/-- Go `image.Image`: `Bounds()` and `At(x, y)`. -/
structure Image where
  Bounds : Rectangle
  At : Int → Int → Color

/-- The command line configuration (resize.go:20-27). -/
structure Config where
  borderColor : List Char
  edgeThreshold : ℚ
  minDPI : ℚ
  targetWidth : ℚ
  targetHeight : ℚ
  borderWidth : ℚ
  bleedWidth : ℚ

/-! ## Edge detection -/

/-- The window update of `detectEdge` (resize.go:198-201):
`colors = append(colors, next)`, then `colors[len-3 : len-1]` when the
length exceeds 3. -/
def pushWindow (colors : List Color) (next : Color) : List Color :=
  let colors := colors ++ [next]
  if colors.length > 3 then (colors.drop (colors.length - 3)).take 2 else colors

/-- A window holding one colour only, as `detectEdge` keeps it on a run of
equal pixels. -/
def Uniform (c : Color) (w : List Color) : Prop :=
  w = [c] ∨ w = [c, c] ∨ w = [c, c, c]

/-- The loop of `detectEdge` (resize.go:191-203), from the loop state
`(x, y, colors)`. -/
def detectEdgeLoop (cfg : Config) (img : Image) (xEnd yEnd xStep yStep : Int) :
    Nat → Int → Int → List Color → Option (Except Err (Int × Int × Color))
  | 0, _, _, _ => none
  | fuel + 1, x, y, colors =>
    if x ≠ xEnd - xStep ∧ y ≠ yEnd - yStep then
      let next := rgba (img.At (x + xStep) (y + yStep))
      match averageColor colors with
      | .error e => some (.error e)
      | .ok avg =>
        if distGE next avg cfg.edgeThreshold then some (.ok (x, y, avg))
        else detectEdgeLoop cfg img xEnd yEnd xStep yStep fuel
          (x + xStep) (y + yStep) (pushWindow colors next)
    else some (.error .edgeNotFound)

/-- Function `detectEdge` (resize.go:189-204). -/
def detectEdge (cfg : Config) (fuel : Nat) (img : Image)
    (xStart xEnd yStart yEnd xStep yStep : Int) : Option (Except Err (Int × Int × Color)) :=
  detectEdgeLoop cfg img xEnd yEnd xStep yStep fuel xStart yStart
    [rgba (img.At xStart yStart)]

/-- The `return` of `detectEdgeByQuarters` (resize.go:219). -/
def quarterResult (x1 y1 : Int) (c1 : Color) (x2 y2 : Int) (c2 : Color)
    (x3 y3 : Int) (c3 : Color) : Except Err (Int × Int × Color) :=
  match average [x1, x2, x3] with
  | .error e => .error e
  | .ok x =>
    match average [y1, y2, y3] with
    | .error e => .error e
    | .ok y =>
      match averageColor [c1, c2, c3] with
      | .error e => .error e
      | .ok c => .ok (x, y, c)

/-- Function `detectEdgeByQuarters` (resize.go:206-220). -/
def detectEdgeByQuarters (cfg : Config) (fuel : Nat) (img : Image)
    (xStart xEnd yStart yEnd xStep yStep xInc yInc : Int) :
    Option (Except Err (Int × Int × Color)) :=
  match detectEdge cfg fuel img (xInc * 1 + xStart) xEnd (yInc * 1 + yStart) yEnd xStep yStep with
  | none => none
  | some (.error e) => some (.error e)
  | some (.ok (x1, y1, c1)) =>
    match detectEdge cfg fuel img (xInc * 2 + xStart) xEnd (yInc * 2 + yStart) yEnd
        xStep yStep with
    | none => none
    | some (.error e) => some (.error e)
    | some (.ok (x2, y2, c2)) =>
      match detectEdge cfg fuel img (xInc * 3 + xStart) xEnd (yInc * 3 + yStart) yEnd
          xStep yStep with
      | none => none
      | some (.error e) => some (.error e)
      | some (.ok (x3, y3, c3)) => some (quarterResult x1 y1 c1 x2 y2 c2 x3 y3 c3)

/-- Function `detectBorder` (resize.go:222-242). -/
def detectBorder (cfg : Config) (fuel : Nat) (img : Image) :
    Option (Except Err (Rectangle × Color)) :=
  let xq := img.Bounds.Max.X.tdiv 4
  let yq := img.Bounds.Max.Y.tdiv 4
  match detectEdgeByQuarters cfg fuel img 0 (img.Bounds.Max.X - 1) 0 (img.Bounds.Max.Y - 1)
      1 0 0 yq with
  | none => none
  | some (.error e) => some (.error e)
  | some (.ok (left, _, lc)) =>
    match detectEdgeByQuarters cfg fuel img (img.Bounds.Max.X - 1) 0 0 (img.Bounds.Max.Y - 1)
        (-1) 0 0 yq with
    | none => none
    | some (.error e) => some (.error e)
    | some (.ok (right, _, rc)) =>
      match detectEdgeByQuarters cfg fuel img 0 (img.Bounds.Max.X - 1) 0 (img.Bounds.Max.Y - 1)
          0 1 xq 0 with
      | none => none
      | some (.error e) => some (.error e)
      | some (.ok (_, top, tc)) =>
        match detectEdgeByQuarters cfg fuel img 0 (img.Bounds.Max.X - 1)
            (img.Bounds.Max.Y - 1) 0 0 (-1) xq 0 with
        | none => none
        | some (.error e) => some (.error e)
        | some (.ok (_, bottom, bc)) =>
          match averageColor [lc, rc, tc, bc] with
          | .error e => some (.error e)
          | .ok c => some (.ok (Rect left top right bottom, c))

/-! ## Colour parsing -/

/-- The value of one byte as a base-16 digit, as `strconv.ParseUint` reads
it: `0-9`, `a-f`, `A-F`. -/
def hexDigit (c : Char) : Option Nat :=
  let n := c.toNat
  if 48 ≤ n ∧ n ≤ 57 then some (n - 48)
  else if 97 ≤ n ∧ n ≤ 102 then some (n - 87)
  else if 65 ≤ n ∧ n ≤ 70 then some (n - 55)
  else none

/-- The digit loop of `strconv.ParseUint(s, 16, 8)`. -/
def parseUintLoop : List Char → Nat → Except Err Nat
  | [], n => .ok n
  | c :: cs, n =>
    match hexDigit c with
    | none => .error .parseUintSyntax
    | some d => if n * 16 + d > 255 then .error .parseUintRange else parseUintLoop cs (n * 16 + d)

/-- Go `strconv.ParseUint(s, 16, 8)`. -/
def ParseUint (s : List Char) : Except Err Nat :=
  if s = [] then .error .parseUintSyntax else parseUintLoop s 0

/-- Function `padComponent` (resize.go:266-271); `c[0:2]` panics when `len(c) < 2`. -/
def padComponent (c : List Char) : Except Err (List Char) :=
  if c.length = 1 then .ok (c ++ c)
  else if 2 ≤ c.length then .ok (c.take 2)
  else .error .panicSliceBounds

/-- One iteration of the loop of `parseColor` (resize.go:252-257), giving
`components[i]`. -/
def parseComponent (hexCode : List Char) (chunkSize i : Nat) : Except Err (Fin 256) :=
  let chunk := (hexCode.drop (i * chunkSize)).take chunkSize
  match padComponent chunk with
  | .error e => .error e
  | .ok padded =>
    match ParseUint padded with
    | .error e => .error e
    | .ok c => .ok (uint8 c)

/-- Function `parseColor` (resize.go:244-264). -/
def parseColor (hexCode : List Char) : Except Err Color :=
  if hexCode.length % 3 ≠ 0 then .error .invalidColorLength
  else
    let chunkSize := hexCode.length / 3
    match parseComponent hexCode chunkSize 0 with
    | .error e => .error e
    | .ok c0 =>
      match parseComponent hexCode chunkSize 1 with
      | .error e => .error e
      | .ok c1 =>
        match parseComponent hexCode chunkSize 2 with
        | .error e => .error e
        | .ok c2 => .ok { R := c0, G := c1, B := c2, A := 0xFF }

/-! ## Analysis -/

/-- Function `analyzeImage` (resize.go:130-146), without the two `Printf`s. -/
def analyzeImage (cfg : Config) (fuel : Nat) (img : Image) :
    Option (Except Err (Rectangle × Bool × Color)) :=
  match detectBorder cfg fuel img with
  | none => none
  | some (.error e) => some (.error e)
  | some (.ok (clipRect, fillColor)) =>
    let needsRotation : Bool :=
      decide (clipRect.Max.X - clipRect.Min.X > clipRect.Max.Y - clipRect.Min.Y)
    if cfg.borderColor ≠ "detect".toList then
      match parseColor cfg.borderColor with
      | .error e => some (.error e)
      | .ok c => some (.ok (clipRect, needsRotation, c))
    else some (.ok (clipRect, needsRotation, fillColor))

/-! ## Composition -/

/-- Go `image.RGBA`: its rectangle and its pixel store. -/
structure RGBAImage where
  Rect : Rectangle
  Pix : Int → Int → Color

/-- Go `image.NewRGBA`: all pixels zero. -/
def NewRGBA (r : Rectangle) : RGBAImage := ⟨r, fun _ _ => ⟨0, 0, 0, 0⟩⟩

/-- Go `(*image.RGBA).Bounds`. -/
def RGBAImage.Bounds (m : RGBAImage) : Rectangle := m.Rect

/-- Go `(*image.RGBA).At`: the zero colour outside the rectangle. -/
def RGBAImage.At (m : RGBAImage) (x y : Int) : Color :=
  if (Point.mk x y).In m.Rect then m.Pix x y else ⟨0, 0, 0, 0⟩

/-- Go `(*image.RGBA).Set`: no effect outside the rectangle. -/
def RGBAImage.Set (m : RGBAImage) (x y : Int) (c : Color) : RGBAImage :=
  if (Point.mk x y).In m.Rect then
    { m with Pix := fun a b => if a = x ∧ b = y then c else m.Pix a b }
  else m

/-- Function `fillImage` (resize.go:318-324). -/
def fillImage (img : RGBAImage) (fillColor : Color) : RGBAImage :=
  (List.range (img.Bounds.Max.X - img.Bounds.Min.X).toNat).foldl
    (fun im (i : Nat) =>
      (List.range (im.Bounds.Max.Y - im.Bounds.Min.Y).toNat).foldl
        (fun im (j : Nat) => im.Set (im.Bounds.Min.X + i) (im.Bounds.Min.Y + j) fillColor) im)
    img

/-- The measured dimensions of `resizeImage` (resize.go:277-281). -/
def measuredSize (clipRect : Rectangle) (needsRotation : Bool) : Int × Int :=
  let width := clipRect.Max.X - clipRect.Min.X
  let height := clipRect.Max.Y - clipRect.Min.Y
  if needsRotation then (height, width) else (width, height)

/-- The aspect correction of `resizeImage` (resize.go:282-288):
`(calcWidth, calcHeight)`, in exact arithmetic.  The code floors the float64
product or quotient, given by `aspectCorrect64`; the two differ where the
rounding crosses an integer. -/
def aspectCorrect (desiredRatio : ℚ) (width height : Int) : Int × Int :=
  let actualRatio := (width : ℚ) / (height : ℚ)
  if actualRatio < desiredRatio then (⌊(height : ℚ) * desiredRatio⌋, height)
  else if actualRatio > desiredRatio then (width, ⌊(width : ℚ) / desiredRatio⌋)
  else (width, height)

/-- The `desiredRatio` of `resizeImage` (resize.go:274-276). -/
def desiredRatio (cfg : Config) : ℚ :=
  let desiredInnerWidth := cfg.targetWidth - 2 * cfg.borderWidth
  let desiredInnerHeight := cfg.targetHeight - 2 * cfg.borderWidth
  desiredInnerWidth / desiredInnerHeight

/-- The `offset` of `resizeImage` (resize.go:290-292). -/
def marginOffset (cfg : Config) (calcWidth : Int) : Int :=
  let desiredInnerWidth := cfg.targetWidth - 2 * cfg.borderWidth
  let actualDPI := (calcWidth : ℚ) / desiredInnerWidth
  ⌊(cfg.borderWidth + cfg.bleedWidth) * actualDPI⌋

/-- The copy loop of `resizeImage` (resize.go:299-310). -/
def copyPixels (img : RGBAImage) (source : Image) (clipRect : Rectangle) (needsRotation : Bool)
    (width height offset : Int) : RGBAImage :=
  (List.range width.toNat).foldl
    (fun im (i : Nat) =>
      (List.range height.toNat).foldl
        (fun im (j : Nat) =>
          let x : Int := i
          let y : Int := j
          let (xp, yp) := if needsRotation then (y, width - x) else (x, y)
          im.Set (x + offset) (y + offset) (source.At (clipRect.Min.X + xp) (clipRect.Min.Y + yp)))
        im)
    img

/-- Function `resizeImage` (resize.go:273-316), without the `Printf`; the returned
error is always `nil`. -/
def resizeImage (cfg : Config) (source : Image) (clipRect : Rectangle) (needsRotation : Bool)
    (fillColor : Color) : RGBAImage :=
  let (width, height) := measuredSize clipRect needsRotation
  let (calcWidth, calcHeight) := aspectCorrect (desiredRatio cfg) width height
  let offset := marginOffset cfg calcWidth
  let fullWidth := calcWidth + 2 * offset
  let fullHeight := calcHeight + 2 * offset
  let img := fillImage (NewRGBA (Rect 0 0 fullWidth fullHeight)) fillColor
  copyPixels img source clipRect needsRotation width height offset

/-! ## Scan rays and sample inputs -/

/-- A scan ray of `detectEdge` inside the image: a unit step along exactly
one axis, the start pixel strictly before the end pixel in the direction of
the step, both in the bounds of the image. -/
def ScanRay (img : Image) (xStart xEnd yStart yEnd xStep yStep : Int) : Prop :=
  (Point.mk xStart yStart).In img.Bounds ∧
  ((yStep = 0 ∧ (xStep = 1 ∨ xStep = -1) ∧ 0 < (xEnd - xStart) * xStep ∧
      (Point.mk xEnd yStart).In img.Bounds) ∨
   (xStep = 0 ∧ (yStep = 1 ∨ yStep = -1) ∧ 0 < (yEnd - yStart) * yStep ∧
      (Point.mk xStart yEnd).In img.Bounds))

/-- Opaque white. -/
def white : Color := ⟨255, 255, 255, 255⟩

/-- Opaque black. -/
def black : Color := ⟨0, 0, 0, 255⟩

/-- The default configuration of the command line (resize.go:40-89), the
decimal defaults read as exact fractions. -/
def defaultConfig : Config :=
  { borderColor := "detect".toList
    edgeThreshold := 1 / 10
    minDPI := 300
    targetWidth := 63 / 10 / (254 / 100)
    targetHeight := 88 / 10 / (254 / 100)
    borderWidth := 3 / 32
    bleedWidth := 1 / 8 }

/-- A 10 x 10 image, white left of column 4 and black from column 4 on. -/
def stepImage : Image :=
  { Bounds := Rect 0 0 10 10
    At := fun x _ => if x < 4 then white else black }

/-- An 8 x 8 image, white everywhere inside its bounds and the zero colour
outside, as `image.RGBA` gives it. -/
def whiteImage : Image :=
  { Bounds := Rect 0 0 8 8
    At := fun x y => if (Point.mk x y).In (Rect 0 0 8 8) then white else ⟨0, 0, 0, 0⟩ }

/-- A W x H image with bounds origin (0, 0) whose pixels are C on a border of
width B and D inside. -/
def Bordered (img : Image) (W H B : Int) (C D : Color) : Prop :=
  img.Bounds = ⟨⟨0, 0⟩, ⟨W, H⟩⟩ ∧
  ∀ x y, 0 ≤ x → x < W → 0 ≤ y → y < H →
    img.At x y = if x < B ∨ x ≥ W - B ∨ y < B ∨ y ≥ H - B then C else D

/-- The bordered W x H image itself, with the zero colour outside its
bounds. -/
def borderedImage (W H B : Int) (C D : Color) : Image :=
  { Bounds := ⟨⟨0, 0⟩, ⟨W, H⟩⟩
    At := fun x y =>
      if 0 ≤ x ∧ x < W ∧ 0 ≤ y ∧ y < H then
        if x < B ∨ x ≥ W - B ∨ y < B ∨ y ≥ H - B then C else D
      else ⟨0, 0, 0, 0⟩ }

/-- The bytes that are hexadecimal digits, in either case. -/
def hexChars : List Char := "0123456789abcdefABCDEF".toList

/-- The value of a hexadecimal digit, 0 for any other byte. -/
def hexVal (c : Char) : Nat := (hexDigit c).getD 0

/-- The default configuration with the border colour given as "fff". -/
def whiteBorderConfig : Config := { defaultConfig with borderColor := "fff".toList }

/-- A 20 x 20 image whose pixel (x, y) has R = x and G = y, with the zero
colour outside its bounds. -/
def coordImage : Image :=
  { Bounds := ⟨⟨0, 0⟩, ⟨20, 20⟩⟩
    At := fun x y =>
      if 0 ≤ x ∧ x < 20 ∧ 0 ≤ y ∧ y < 20 then ⟨uint8 x.toNat, uint8 y.toNat, 0, 255⟩
      else ⟨0, 0, 0, 0⟩ }

/-- The sum of one 8-bit channel over a list of colours. -/
def channelSum (f : Color → Fin 256) (colors : List Color) : Nat :=
  (colors.map (fun c => (f c).val)).sum

/-- An opaque grey of level v. -/
def grey (v : Nat) : Color := ⟨uint8 v, uint8 v, uint8 v, 255⟩

/-- The window of `detectEdge` when its loop has made n steps along the ray
without returning (resize.go:190, 198-201): `windowAt 0` is the start pixel,
and step n + 1 pushes pixel n + 1 of the ray. -/
def windowAt (img : Image) (xStart yStart xStep yStep : Int) : Nat → List Color
  | 0 => [rgba (img.At xStart yStart)]
  | n + 1 =>
    pushWindow (windowAt img xStart yStart xStep yStep n)
      (rgba (img.At (xStart + (n + 1 : Nat) * xStep) (yStart + (n + 1 : Nat) * yStep)))

/-- A 12 x 4 image whose column x is the grey of level 10 x, with the zero
colour outside its bounds. -/
def gradientImage : Image :=
  { Bounds := ⟨⟨0, 0⟩, ⟨12, 4⟩⟩
    At := fun x y =>
      if 0 ≤ x ∧ x < 12 ∧ 0 ≤ y ∧ y < 4 then grey (10 * x.toNat) else ⟨0, 0, 0, 0⟩ }

/-- The bordered 12 x 10 image (white border of width 1, black inside) with
the one pixel (10, 4) turned white. -/
def notchedImage : Image :=
  { Bounds := ⟨⟨0, 0⟩, ⟨12, 10⟩⟩
    At := fun x y =>
      if x = 10 ∧ y = 4 then white else (borderedImage 12 10 1 white black).At x y }

/-- The bordered 12 x 10 image with the one pixel (10, 3) turned white. -/
def speckImage : Image :=
  { Bounds := ⟨⟨0, 0⟩, ⟨12, 10⟩⟩
    At := fun x y =>
      if x = 10 ∧ y = 3 then white else (borderedImage 12 10 1 white black).At x y }

/-- A walk of `detectEdge` along one axis: from a, by steps s, n steps to v,
the loop test `!= e - s` holding on the way. -/
def Walk (a e s v : Int) : Prop :=
  ∃ n : Nat, v = a + n * s ∧ ∀ i : Nat, i ≤ n → a + i * s ≠ e - s

/-- A 1 x 8 image, white everywhere inside its bounds and the zero colour
outside, as `image.RGBA` gives it. -/
def thinWhiteImage : Image :=
  { Bounds := ⟨⟨0, 0⟩, ⟨1, 8⟩⟩
    At := fun x y => if 0 ≤ x ∧ x < 1 ∧ 0 ≤ y ∧ y < 8 then white else ⟨0, 0, 0, 0⟩ }

/-- The rows of the three scans for the left and right edges, in the words of
amended C17: q, 2q and 3q with q = H/4. -/
def scanRows (H : Int) : List Int := [H / 4, 2 * (H / 4), 3 * (H / 4)]

/-- The columns of the three scans for the top and bottom edges, in the
words of amended C17: p, 2p and 3p with p = W/4. -/
def scanColumns (W : Int) : List Int := [W / 4, 2 * (W / 4), 3 * (W / 4)]

/-- The result of three scans made in turn: the first failure, or the
averages of the three coordinates and colours. -/
def averageOfScans (r1 r2 r3 : Option (Except Err (Int × Int × Color))) :
    Option (Except Err (Int × Int × Color)) :=
  match r1 with
  | none => none
  | some (.error e) => some (.error e)
  | some (.ok (x1, y1, c1)) =>
    match r2 with
    | none => none
    | some (.error e) => some (.error e)
    | some (.ok (x2, y2, c2)) =>
      match r3 with
      | none => none
      | some (.error e) => some (.error e)
      | some (.ok (x3, y3, c3)) => some (quarterResult x1 y1 c1 x2 y2 c2 x3 y3 c3)

/-- Three scans at the positions of a list of three, made in turn. -/
def scanThree (scan : Int → Option (Except Err (Int × Int × Color))) :
    List Int → Option (Except Err (Int × Int × Color))
  | [a, b, c] => averageOfScans (scan a) (scan b) (scan c)
  | _ => none

/-- The clip rectangle and colour of four sides found in turn: the first
failure, or `image.Rect` of the four coordinates and the average colour. -/
def sidesResult (l r t b : Option (Except Err (Int × Int × Color))) :
    Option (Except Err (Rectangle × Color)) :=
  match l with
  | none => none
  | some (.error e) => some (.error e)
  | some (.ok (left, _, lc)) =>
    match r with
    | none => none
    | some (.error e) => some (.error e)
    | some (.ok (right, _, rc)) =>
      match t with
      | none => none
      | some (.error e) => some (.error e)
      | some (.ok (_, top, tc)) =>
        match b with
        | none => none
        | some (.error e) => some (.error e)
        | some (.ok (_, bottom, bc)) =>
          match averageColor [lc, rc, tc, bc] with
          | .error e => some (.error e)
          | .ok c => some (.ok (Rect left top right bottom, c))

/-- Border detection in the words of amended C17, for a W x H image: the left
edge from three scans of `detectEdge` rightwards from x = 0 along the rows
`scanRows H`, the right edge from three scans leftwards from x = W - 1 along
the same rows, the top edge from three scans downwards from y = 0 along the
columns `scanColumns W`, the bottom edge from three scans upwards from
y = H - 1 along the same columns. -/
def quarterScanBorder (cfg : Config) (fuel : Nat) (img : Image) (W H : Int) :
    Option (Except Err (Rectangle × Color)) :=
  sidesResult
    (scanThree (fun y => detectEdge cfg fuel img 0 (W - 1) y (H - 1) 1 0) (scanRows H))
    (scanThree (fun y => detectEdge cfg fuel img (W - 1) 0 y (H - 1) (-1) 0) (scanRows H))
    (scanThree (fun x => detectEdge cfg fuel img x (W - 1) 0 (H - 1) 0 1) (scanColumns W))
    (scanThree (fun x => detectEdge cfg fuel img x (W - 1) (H - 1) 0 0 (-1)) (scanColumns W))

/-! ## float64 rounding -/

/-- The floor of the base-2 logarithm of n ≥ 1, by halving at most `fuel`
times. -/
def log2Fuel : Nat → Nat → Nat
  | 0, _ => 0
  | fuel + 1, n => if n < 2 then 0 else log2Fuel fuel (n / 2) + 1

/-- The floor of the base-2 logarithm of a rational x > 0: that of the
numerator less that of the denominator, or one below. -/
def floorLog2 (x : ℚ) : Int :=
  let k0 : Int := (log2Fuel x.num.natAbs x.num.natAbs : Int) - (log2Fuel x.den x.den : Int)
  if (2 : ℚ) ^ k0 ≤ x then k0 else k0 - 1

/-- Rounding to the nearest integer, ties to the even one. -/
def roundHalfEven (y : ℚ) : Int :=
  if y - ⌊y⌋ < 1 / 2 then ⌊y⌋
  else if y - ⌊y⌋ > 1 / 2 then ⌊y⌋ + 1
  else if ⌊y⌋ % 2 = 0 then ⌊y⌋ else ⌊y⌋ + 1

/-- The float64 nearest to a rational (IEEE 754 binary64, round to nearest,
ties to even): a 53-bit significand at the exponent of x.  The exponent is
not bounded: the values below 2^-1022 or from 2^1024 on, which float64 rounds
to subnormals or to infinity, are outside this model. -/
def f64 (x : ℚ) : ℚ :=
  if x = 0 then 0
  else (roundHalfEven (x / (2 : ℚ) ^ (floorLog2 |x| - 52)) : ℚ) * (2 : ℚ) ^ (floorLog2 |x| - 52)

/-- The aspect correction of `resizeImage` (resize.go:282-288) with its
float64 operations rounded: the quotient `float64(width) / float64(height)`,
the product `float64(height) * desiredRatio` and the quotient
`float64(width) / desiredRatio` are rounded by `f64`; the conversions
`float64(width)` and `float64(height)` are exact below 2^53, and
`int(math.Floor(v))` is the floor for v below 2^63.  The function
`aspectCorrect` is this computation in exact arithmetic. -/
def aspectCorrect64 (desiredRatio : ℚ) (width height : Int) : Int × Int :=
  let actualRatio := f64 ((width : ℚ) / (height : ℚ))
  if actualRatio < desiredRatio then (⌊f64 ((height : ℚ) * desiredRatio)⌋, height)
  else if actualRatio > desiredRatio then (width, ⌊f64 ((width : ℚ) / desiredRatio)⌋)
  else (width, height)

/-! # Theorems -/

/-! ## Colour lemmas -/

theorem widen_eq (r : Fin 256) : r.val ||| (r.val <<< 8) = r.val * 257 := by
  revert r; decide!

theorem narrow_widen (r : Fin 256) : uint8 ((r.val ||| (r.val <<< 8)) >>> 8) = r := by
  revert r; decide!

theorem rgba_eq (c : Color) : rgba c = ⟨c.R, c.G, c.B, 255⟩ := by
  simp [rgba, Color.RGBA, narrow_widen]

theorem rgba_A (c : Color) : (rgba c).A = 255 := by
  simp [rgba_eq]

theorem rgba_of_A {c : Color} (h : c.A = 255) : rgba c = c := by
  cases c; simp_all [rgba_eq]

theorem rgba_idem (c : Color) : rgba (rgba c) = rgba c := rgba_of_A (rgba_A c)

theorem uniform_push {c : Color} {w : List Color} (h : Uniform c w) :
    Uniform c (pushWindow w c) := by
  rcases h with h | h | h <;> subst h <;> simp [Uniform, pushWindow]

theorem averageColor_uniform {c : Color} (hA : c.A = 255) {w : List Color}
    (h : Uniform c w) : averageColor w = .ok c := by
  rcases c with ⟨R, G, B, A⟩
  simp only at hA
  subst hA
  rcases h with h | h | h <;> subst h <;>
    simp [averageColor, Color.RGBA, widen_eq, List.foldl] <;>
    refine ⟨?_, ?_, ?_⟩ <;>
    first
      | (clear G B; revert R; decide!)
      | (clear R B; revert G; decide!)
      | (clear R G; revert B; decide!)

theorem averageColor_four {c : Color} (hA : c.A = 255) :
    averageColor [c, c, c, c] = .ok c := by
  rcases c with ⟨R, G, B, A⟩
  simp only at hA
  subst hA
  simp [averageColor, Color.RGBA, widen_eq, List.foldl]
  refine ⟨?_, ?_, ?_⟩ <;>
    first
      | (clear G B; revert R; decide!)
      | (clear R B; revert G; decide!)
      | (clear R G; revert B; decide!)

theorem colorDistanceNum_self (c : Color) : colorDistanceNum c c = 0 := by
  simp [colorDistanceNum]

theorem not_distGE_self (c : Color) {t : ℚ} (ht : 0 < t) : ¬ distGE c c t := by
  simp only [distGE, colorDistanceSq, colorDistanceNum_self]
  have : 0 < t * t := mul_pos ht ht
  intro h
  rcases h with h | h
  · linarith
  · simp at h; linarith

/-! ## The scan loop -/

/-- On a run of `n + 1` equal pixels followed by a pixel at distance at least
the threshold, the loop stops on the last pixel of the run. -/
theorem detectEdgeLoop_edge (cfg : Config) (img : Image) (xEnd yEnd xStep yStep : Int)
    (c d : Color) (hc : c.A = 255) (ht : 0 < cfg.edgeThreshold)
    (hd : distGE d c cfg.edgeThreshold) :
    ∀ (n : Nat) (x y : Int) (w : List Color), Uniform c w →
      (∀ i : Nat, i ≤ n → x + i * xStep ≠ xEnd - xStep ∧ y + i * yStep ≠ yEnd - yStep) →
      (∀ i : Nat, 1 ≤ i → i ≤ n → rgba (img.At (x + i * xStep) (y + i * yStep)) = c) →
      rgba (img.At (x + (n + 1 : Nat) * xStep) (y + (n + 1 : Nat) * yStep)) = d →
      ∀ fuel, n + 1 ≤ fuel →
        detectEdgeLoop cfg img xEnd yEnd xStep yStep fuel x y w
          = some (.ok (x + n * xStep, y + n * yStep, c)) := by
  intro n
  induction n with
  | zero =>
    intro x y w hw hcond _ hnext fuel hfuel
    obtain ⟨f, rfl⟩ : ∃ f, fuel = f + 1 := ⟨fuel - 1, by omega⟩
    have h0 := hcond 0 (le_refl _)
    simp only [Nat.cast_zero, zero_mul, add_zero] at h0
    simp only [Nat.cast_zero, zero_add, Nat.cast_one, one_mul] at hnext
    simp [detectEdgeLoop, h0, averageColor_uniform hc hw, hnext, hd]
  | succ n ih =>
    intro x y w hw hcond hpix hnext fuel hfuel
    obtain ⟨f, rfl⟩ : ∃ f, fuel = f + 1 := ⟨fuel - 1, by omega⟩
    have h0 := hcond 0 (Nat.zero_le _)
    simp only [Nat.cast_zero, zero_mul, add_zero] at h0
    have h1 := hpix 1 (le_refl _) (by omega)
    simp only [Nat.cast_one, one_mul] at h1
    have hrec := ih (x + xStep) (y + yStep) (pushWindow w c) (uniform_push hw)
      (fun i hi => by
        have := hcond (i + 1) (by omega)
        push_cast at this
        constructor
        · intro h; apply this.1; rw [← h]; ring
        · intro h; apply this.2; rw [← h]; ring)
      (fun i hi1 hi => by
        have := hpix (i + 1) (by omega) (by omega)
        push_cast at this
        rw [← this]; congr 2 <;> ring)
      (by
        rw [← hnext]; push_cast; congr 2 <;> ring)
      f (by omega)
    rw [detectEdgeLoop, if_pos h0]
    simp only [h1, averageColor_uniform hc hw, if_neg (not_distGE_self c ht)]
    have e1 : x + xStep + (n : Int) * xStep = x + ((n + 1 : Nat) : Int) * xStep := by
      push_cast; ring
    have e2 : y + yStep + (n : Int) * yStep = y + ((n + 1 : Nat) : Int) * yStep := by
      push_cast; ring
    rw [hrec, e1, e2]

/-- On a run of equal pixels that reaches the end of the ray, the loop ends
with the edge-not-found error. -/
theorem detectEdgeLoop_uniform (cfg : Config) (img : Image) (xEnd yEnd xStep yStep : Int)
    (c : Color) (hc : c.A = 255) (ht : 0 < cfg.edgeThreshold) :
    ∀ (n : Nat) (x y : Int) (w : List Color), Uniform c w →
      (x + n * xStep = xEnd - xStep ∨ y + n * yStep = yEnd - yStep) →
      (∀ i : Nat, 1 ≤ i → i ≤ n → rgba (img.At (x + i * xStep) (y + i * yStep)) = c) →
      ∀ fuel, n + 1 ≤ fuel →
        detectEdgeLoop cfg img xEnd yEnd xStep yStep fuel x y w
          = some (.error .edgeNotFound) := by
  intro n
  induction n with
  | zero =>
    intro x y w _ hend _ fuel hfuel
    obtain ⟨f, rfl⟩ : ∃ f, fuel = f + 1 := ⟨fuel - 1, by omega⟩
    simp only [Nat.cast_zero, zero_mul, add_zero] at hend
    have : ¬ (x ≠ xEnd - xStep ∧ y ≠ yEnd - yStep) := by
      rcases hend with h | h <;> simp [h]
    simp only [detectEdgeLoop, this, ↓reduceIte]
  | succ n ih =>
    intro x y w hw hend hpix fuel hfuel
    obtain ⟨f, rfl⟩ : ∃ f, fuel = f + 1 := ⟨fuel - 1, by omega⟩
    by_cases h0 : x ≠ xEnd - xStep ∧ y ≠ yEnd - yStep
    · have h1 := hpix 1 (le_refl _) (by omega)
      simp only [Nat.cast_one, one_mul] at h1
      have hrec := ih (x + xStep) (y + yStep) (pushWindow w c) (uniform_push hw)
        (by
          push_cast at hend
          rcases hend with h | h
          · left; rw [← h]; ring
          · right; rw [← h]; ring)
        (fun i hi1 hi => by
          have := hpix (i + 1) (by omega) (by omega)
          push_cast at this
          rw [← this]; congr 2 <;> ring)
        f (by omega)
      rw [detectEdgeLoop, if_pos h0]
      simp only [h1, averageColor_uniform hc hw, if_neg (not_distGE_self c ht)]
      exact hrec
    · rw [detectEdgeLoop, if_neg h0]

/-! ## The scan of one ray -/

theorem colorDistanceNum_rgba (c1 c2 : Color) :
    colorDistanceNum (rgba c1) (rgba c2) = colorDistanceNum c1 c2 := by
  simp [colorDistanceNum, rgba_idem]

theorem colorDistanceNum_comm (c1 c2 : Color) :
    colorDistanceNum c1 c2 = colorDistanceNum c2 c1 := by
  simp only [colorDistanceNum]
  congr 1
  ring

theorem distGE_rgba_comm (c1 c2 : Color) (t : ℚ) :
    distGE (rgba c1) (rgba c2) t ↔ distGE c2 c1 t := by
  simp only [distGE, colorDistanceSq, colorDistanceNum_rgba, colorDistanceNum_comm c1 c2]

/-- C2: on a horizontal ray from x = 0 whose pixels are C before column k and a
colour at distance 1 from C from column k on, with 1 ≤ k ≤ xEnd - 1 and a
threshold in (0, 1], detectEdge returns (k - 1, y) and the colour C with alpha
255, given fuel for k iterations. -/
theorem detectEdge_step_edge (cfg : Config) (img : Image) (C D : Color)
    (k xEnd yStart yEnd : Int) (hk1 : 1 ≤ k) (hk2 : k ≤ xEnd - 1) (hy : yStart ≠ yEnd)
    (ht0 : 0 < cfg.edgeThreshold) (ht1 : cfg.edgeThreshold ≤ 1)
    (hmax : colorDistanceSq C D = 1)
    (hC : ∀ x, 0 ≤ x → x < k → img.At x yStart = C)
    (hD : ∀ x, k ≤ x → x ≤ xEnd → img.At x yStart = D) :
    ∀ fuel, k.toNat ≤ fuel →
      detectEdge cfg fuel img 0 xEnd yStart yEnd 1 0
        = some (.ok (k - 1, yStart, ⟨C.R, C.G, C.B, 255⟩)) := by
  intro fuel hfuel
  have hdist : distGE (rgba D) (rgba C) cfg.edgeThreshold := by
    rw [distGE_rgba_comm]
    right
    rw [hmax]
    nlinarith
  have key := detectEdgeLoop_edge cfg img xEnd yEnd 1 0 (rgba C) (rgba D) (rgba_A C) ht0 hdist
    (k - 1).toNat 0 yStart [rgba C] (Or.inl rfl)
    (fun i hi => by constructor <;> omega)
    (fun i h1 hi => by
      have : img.At (0 + (i : Int) * 1) (yStart + (i : Int) * 0) = C := by
        have := hC i (by omega) (by omega)
        simpa using this
      rw [this])
    (by
      have : img.At (0 + (((k - 1).toNat + 1 : Nat) : Int) * 1)
          (yStart + (((k - 1).toNat + 1 : Nat) : Int) * 0) = D := by
        have e : (((k - 1).toNat + 1 : Nat) : Int) = k := by omega
        rw [e]
        have := hD k (le_refl _) (by omega)
        simpa using this
      rw [this])
    fuel (by omega)
  have e : ((k - 1).toNat : Int) = k - 1 := by omega
  rw [e] at key
  simp only [detectEdge, hC 0 (le_refl _) (by omega)]
  rw [key, rgba_eq]
  simp

/-- The witness of C2: the 10 x 10 step image, k = 4, threshold 1/10. -/
theorem detectEdge_step_edge_witness :
    detectEdge defaultConfig 4 stepImage 0 9 5 9 1 0 = some (.ok (3, 5, white)) :=
  detectEdge_step_edge defaultConfig stepImage white black 4 9 5 9 (by decide) (by decide)
    (by decide) (by decide!) (by decide!) (by decide!)
    (fun x _ h => by simp [stepImage, h])
    (fun x h _ => by simp [stepImage]; omega) 4 (by decide)

/-- C3 as stated fails: on the white 1 x 8 image, detectEdge on the ray that
detectBorder itself issues for the left edge (start x = 0, end x = W - 1 = 0,
row 2, step +1) passes the loop test x != xEnd - 1, reads the zero colour at
(1, 2) outside the image and returns the coordinate (0, 2) with the colour
white, not the edge-not-found error. -/
theorem detectEdge_uniform_counterexample :
    (∀ x y : Int, (Point.mk x y).In thinWhiteImage.Bounds → thinWhiteImage.At x y = white) ∧
    0 < defaultConfig.edgeThreshold ∧
    (Point.mk 0 2).In thinWhiteImage.Bounds ∧
    detectEdge defaultConfig 1 thinWhiteImage 0 0 2 7 1 0 = some (.ok (0, 2, white)) := by
  refine ⟨fun x y h => ?_, by decide!, by decide, by decide!⟩
  have hb : thinWhiteImage.Bounds = ⟨⟨0, 0⟩, ⟨1, 8⟩⟩ := rfl
  rw [hb] at h
  simp only [Point.In] at h
  simp [thinWhiteImage, h]

/-- C3, amended: on an image whose pixels all have one colour, with a
threshold above 0, detectEdge along a scan ray with a unit step along one
axis whose start and end pixels are inside the image, the end strictly ahead
of the start in the direction of the step, ends with the edge-not-found error
and no coordinate, given fuel for the length of the ray. -/
theorem detectEdge_uniform_fails (cfg : Config) (img : Image) (c : Color)
    (xStart xEnd yStart yEnd xStep yStep : Int) (ht : 0 < cfg.edgeThreshold)
    (huni : ∀ x y, (Point.mk x y).In img.Bounds → img.At x y = c)
    (hray : ScanRay img xStart xEnd yStart yEnd xStep yStep) :
    ∀ fuel, (xEnd - xStart).natAbs + (yEnd - yStart).natAbs ≤ fuel →
      detectEdge cfg fuel img xStart xEnd yStart yEnd xStep yStep
        = some (.error .edgeNotFound) := by
  intro fuel hfuel
  obtain ⟨hs, hdir⟩ := hray
  simp only [Point.In] at hs
  have hw : Uniform (rgba c) [rgba (img.At xStart yStart)] := Or.inl (by rw [huni _ _ hs])
  rcases hdir with ⟨rfl, hx, hlen, he⟩ | ⟨rfl, hy, hlen, he⟩ <;> simp only [Point.In] at he
  · rcases hx with rfl | rfl
    · apply detectEdgeLoop_uniform cfg img xEnd yEnd 1 0 (rgba c) (rgba_A c) ht
        ((xEnd - xStart).natAbs - 1) xStart yStart _ hw
      · left; omega
      · intro i h1 hi
        rw [huni]
        simp only [Point.In]
        omega
      · omega
    · apply detectEdgeLoop_uniform cfg img xEnd yEnd (-1) 0 (rgba c) (rgba_A c) ht
        ((xEnd - xStart).natAbs - 1) xStart yStart _ hw
      · left; omega
      · intro i h1 hi
        rw [huni]
        simp only [Point.In]
        omega
      · omega
  · rcases hy with rfl | rfl
    · apply detectEdgeLoop_uniform cfg img xEnd yEnd 0 1 (rgba c) (rgba_A c) ht
        ((yEnd - yStart).natAbs - 1) xStart yStart _ hw
      · right; omega
      · intro i h1 hi
        rw [huni]
        simp only [Point.In]
        omega
      · omega
    · apply detectEdgeLoop_uniform cfg img xEnd yEnd 0 (-1) (rgba c) (rgba_A c) ht
        ((yEnd - yStart).natAbs - 1) xStart yStart _ hw
      · right; omega
      · intro i h1 hi
        rw [huni]
        simp only [Point.In]
        omega
      · omega

/-- The witness of amended C3: the right-to-left scan of row 2 of the white
8 x 8 image. -/
theorem detectEdge_uniform_fails_witness :
    detectEdge defaultConfig 12 whiteImage 7 0 2 7 (-1) 0 = some (.error .edgeNotFound) :=
  detectEdge_uniform_fails defaultConfig whiteImage white 7 0 2 7 (-1) 0 (by decide!)
    (fun x y h => by
      have : whiteImage.Bounds = Rect 0 0 8 8 := rfl
      rw [this] at h
      simp [whiteImage, h])
    (by unfold ScanRay; decide) 12 (by decide)

/-! ## Border detection on a bordered image -/

theorem average_three_same (a : Int) : average [a, a, a] = .ok a := by
  have h : a + a + a = 3 * a := by ring
  simp [average, List.foldl, h, Int.mul_tdiv_cancel_left]

theorem uniform_three (c : Color) : Uniform c [c, c, c] := Or.inr (Or.inr rfl)

/-- One scan of the bordered image: from a start pixel on the border, n more
border pixels and then a content pixel. -/
theorem bordered_detectEdge {img : Image} {W H B : Int} {C D : Color}
    (hb : Bordered img W H B C D) (cfg : Config) (ht : 0 < cfg.edgeThreshold)
    (hd : distGE C D cfg.edgeThreshold)
    (x0 xEnd y0 yEnd xs ys : Int) (n : Nat)
    (hcond : ∀ i : Nat, i ≤ n → x0 + i * xs ≠ xEnd - xs ∧ y0 + i * ys ≠ yEnd - ys)
    (hin : ∀ i : Nat, i ≤ n + 1 →
      0 ≤ x0 + i * xs ∧ x0 + i * xs < W ∧ 0 ≤ y0 + i * ys ∧ y0 + i * ys < H)
    (hC : ∀ i : Nat, i ≤ n →
      x0 + i * xs < B ∨ x0 + i * xs ≥ W - B ∨ y0 + i * ys < B ∨ y0 + i * ys ≥ H - B)
    (hD : ¬ (x0 + (n + 1 : Nat) * xs < B ∨ x0 + (n + 1 : Nat) * xs ≥ W - B ∨
      y0 + (n + 1 : Nat) * ys < B ∨ y0 + (n + 1 : Nat) * ys ≥ H - B)) :
    ∀ fuel, n + 1 ≤ fuel →
      detectEdge cfg fuel img x0 xEnd y0 yEnd xs ys
        = some (.ok (x0 + n * xs, y0 + n * ys, rgba C)) := by
  intro fuel hfuel
  have hp : ∀ i : Nat, i ≤ n → img.At (x0 + i * xs) (y0 + i * ys) = C := by
    intro i hi
    obtain ⟨a, b, c, d⟩ := hin i (by omega)
    rw [hb.2 _ _ a b c d, if_pos (hC i hi)]
  have hq : img.At (x0 + (n + 1 : Nat) * xs) (y0 + (n + 1 : Nat) * ys) = D := by
    obtain ⟨a, b, c, d⟩ := hin (n + 1) (le_refl _)
    rw [hb.2 _ _ a b c d, if_neg hD]
  have h0 : img.At x0 y0 = C := by simpa using hp 0 (Nat.zero_le _)
  unfold detectEdge
  rw [h0]
  exact detectEdgeLoop_edge cfg img xEnd yEnd xs ys (rgba C) (rgba D) (rgba_A C) ht
    ((distGE_rgba_comm D C _).2 hd) n x0 y0 [rgba C] (Or.inl rfl) hcond
    (fun i _ hi => by rw [hp i hi]) (by rw [hq]) fuel hfuel

/-- Three scans that agree give their common result. -/
theorem detectEdgeByQuarters_same (cfg : Config) (fuel : Nat) (img : Image)
    (xStart xEnd yStart yEnd xStep yStep xInc yInc x y1 y2 y3 : Int) (c : Color)
    (hc : c.A = 255)
    (h1 : detectEdge cfg fuel img (xInc * 1 + xStart) xEnd (yInc * 1 + yStart) yEnd xStep yStep
      = some (.ok (x, y1, c)))
    (h2 : detectEdge cfg fuel img (xInc * 2 + xStart) xEnd (yInc * 2 + yStart) yEnd xStep yStep
      = some (.ok (x, y2, c)))
    (h3 : detectEdge cfg fuel img (xInc * 3 + xStart) xEnd (yInc * 3 + yStart) yEnd xStep yStep
      = some (.ok (x, y3, c))) :
    ∃ y, detectEdgeByQuarters cfg fuel img xStart xEnd yStart yEnd xStep yStep xInc yInc
      = some (.ok (x, y, c)) := by
  refine ⟨(0 + y1 + y2 + y3).tdiv 3, ?_⟩
  simp only [detectEdgeByQuarters, h1, h2, h3, quarterResult, average_three_same,
    averageColor_uniform hc (uniform_three c)]
  simp [average, List.foldl]


/-- Three scans that agree on the row and the colour give that row. -/
theorem detectEdgeByQuarters_same_y (cfg : Config) (fuel : Nat) (img : Image)
    (xStart xEnd yStart yEnd xStep yStep xInc yInc x1 x2 x3 y : Int) (c : Color)
    (hc : c.A = 255)
    (h1 : detectEdge cfg fuel img (xInc * 1 + xStart) xEnd (yInc * 1 + yStart) yEnd xStep yStep
      = some (.ok (x1, y, c)))
    (h2 : detectEdge cfg fuel img (xInc * 2 + xStart) xEnd (yInc * 2 + yStart) yEnd xStep yStep
      = some (.ok (x2, y, c)))
    (h3 : detectEdge cfg fuel img (xInc * 3 + xStart) xEnd (yInc * 3 + yStart) yEnd xStep yStep
      = some (.ok (x3, y, c))) :
    ∃ x, detectEdgeByQuarters cfg fuel img xStart xEnd yStart yEnd xStep yStep xInc yInc
      = some (.ok (x, y, c)) := by
  refine ⟨(0 + x1 + x2 + x3).tdiv 3, ?_⟩
  simp only [detectEdgeByQuarters, h1, h2, h3, quarterResult, average_three_same,
    averageColor_uniform hc (uniform_three c)]
  simp [average, List.foldl]

theorem edge_result_congr {a b a2 b2 : Int} (c : Color) (ha : a = a2) (hb : b = b2) :
    (some (.ok (a, b, c)) : Option (Except Err (Int × Int × Color))) = some (.ok (a2, b2, c)) := by
  rw [ha, hb]

/-- The exact result of detectBorder on a bordered image. -/
theorem detectBorder_bordered_exact (cfg : Config) (img : Image) (W H B : Int) (C D : Color)
    (hb : Bordered img W H B C D) (hB : 1 ≤ B)
    (ht : 0 < cfg.edgeThreshold) (hd : distGE C D cfg.edgeThreshold)
    (hy1 : B ≤ H / 4) (hy3 : 3 * (H / 4) < H - B)
    (hx1 : B ≤ W / 4) (hx3 : 3 * (W / 4) < W - B) :
    ∀ fuel, B.toNat ≤ fuel →
      detectBorder cfg fuel img
        = some (.ok (⟨⟨B - 1, B - 1⟩, ⟨W - B, H - B⟩⟩, rgba C)) := by
  intro fuel hfuel
  have hW : W.tdiv 4 = W / 4 := Int.tdiv_eq_ediv (by omega) (by decide)
  have hH : H.tdiv 4 = H / 4 := Int.tdiv_eq_ediv (by omega) (by decide)
  have eB : ((B - 1).toNat : Int) = B - 1 := by omega
  have scan := fun x0 xEnd y0 yEnd xs ys =>
    bordered_detectEdge hb cfg ht hd x0 xEnd y0 yEnd xs ys (B - 1).toNat
  -- left edge: three scans of rows H/4, 2(H/4), 3(H/4) from x = 0
  have hL : ∃ y, detectEdgeByQuarters cfg fuel img 0 (W - 1) 0 (H - 1) 1 0 0 (H / 4)
      = some (.ok (B - 1, y, rgba C)) := by
    apply detectEdgeByQuarters_same cfg fuel img 0 (W - 1) 0 (H - 1) 1 0 0 (H / 4) (B - 1)
      (H / 4 * 1 + 0) (H / 4 * 2 + 0) (H / 4 * 3 + 0) (rgba C) (rgba_A C)
    all_goals
      rw [scan _ _ _ _ _ _ (fun i hi => by constructor <;> omega) (fun i hi => by omega)
        (fun i hi => by omega) (by omega) fuel (by omega)]
      exact edge_result_congr _ (by rw [eB]; ring) (by rw [eB]; ring)
  -- right edge: the same rows from x = W - 1
  have hR : ∃ y, detectEdgeByQuarters cfg fuel img (W - 1) 0 0 (H - 1) (-1) 0 0 (H / 4)
      = some (.ok (W - B, y, rgba C)) := by
    apply detectEdgeByQuarters_same cfg fuel img (W - 1) 0 0 (H - 1) (-1) 0 0 (H / 4) (W - B)
      (H / 4 * 1 + 0) (H / 4 * 2 + 0) (H / 4 * 3 + 0) (rgba C) (rgba_A C)
    all_goals
      rw [scan _ _ _ _ _ _ (fun i hi => by constructor <;> omega) (fun i hi => by omega)
        (fun i hi => by omega) (by omega) fuel (by omega)]
      exact edge_result_congr _ (by rw [eB]; ring) (by rw [eB]; ring)
  -- top edge: three scans of columns W/4, 2(W/4), 3(W/4) from y = 0
  have hT : ∃ x, detectEdgeByQuarters cfg fuel img 0 (W - 1) 0 (H - 1) 0 1 (W / 4) 0
      = some (.ok (x, B - 1, rgba C)) := by
    apply detectEdgeByQuarters_same_y cfg fuel img 0 (W - 1) 0 (H - 1) 0 1 (W / 4) 0
      (W / 4 * 1 + 0) (W / 4 * 2 + 0) (W / 4 * 3 + 0) (B - 1) (rgba C) (rgba_A C)
    all_goals
      rw [scan _ _ _ _ _ _ (fun i hi => by constructor <;> omega) (fun i hi => by omega)
        (fun i hi => by omega) (by omega) fuel (by omega)]
      exact edge_result_congr _ (by rw [eB]; ring) (by rw [eB]; ring)
  -- bottom edge: the same columns from y = H - 1
  have hBt : ∃ x, detectEdgeByQuarters cfg fuel img 0 (W - 1) (H - 1) 0 0 (-1) (W / 4) 0
      = some (.ok (x, H - B, rgba C)) := by
    apply detectEdgeByQuarters_same_y cfg fuel img 0 (W - 1) (H - 1) 0 0 (-1) (W / 4) 0
      (W / 4 * 1 + 0) (W / 4 * 2 + 0) (W / 4 * 3 + 0) (H - B) (rgba C) (rgba_A C)
    all_goals
      rw [scan _ _ _ _ _ _ (fun i hi => by constructor <;> omega) (fun i hi => by omega)
        (fun i hi => by omega) (by omega) fuel (by omega)]
      exact edge_result_congr _ (by rw [eB]; ring) (by rw [eB]; ring)
  obtain ⟨yl, hL⟩ := hL
  obtain ⟨yr, hR⟩ := hR
  obtain ⟨xt, hT⟩ := hT
  obtain ⟨xb, hBt⟩ := hBt
  have h4 : averageColor [rgba C, rgba C, rgba C, rgba C] = .ok (rgba C) :=
    averageColor_four (rgba_A C)
  have hrect : Rect (B - 1) (B - 1) (W - B) (H - B) = ⟨⟨B - 1, B - 1⟩, ⟨W - B, H - B⟩⟩ := by
    have h1 : ¬ (B - 1 > W - B) := by omega
    have h2 : ¬ (B - 1 > H - B) := by omega
    simp [Rect, h1, h2]
  simp only [detectBorder, hb.1, hW, hH, hL, hR, hT, hBt, h4, hrect]

/-- C1: on a W x H image with a border of colour C and width B ≥ 1 around a
block of colour D, with colorDistance(C, D) at least the threshold, the
threshold above 0 and the quarter rows and columns inside the block,
detectBorder succeeds, each edge of the clip rectangle is within 1 pixel of
the border (Min within 1 of B, Max within 1 of W - B and H - B), and the
background colour is C with alpha 255. -/
theorem detectBorder_bordered (cfg : Config) (img : Image) (W H B : Int) (C D : Color)
    (hb : Bordered img W H B C D) (hB : 1 ≤ B)
    (ht : 0 < cfg.edgeThreshold) (hd : distGE C D cfg.edgeThreshold)
    (hy1 : B ≤ H / 4) (hy3 : 3 * (H / 4) < H - B)
    (hx1 : B ≤ W / 4) (hx3 : 3 * (W / 4) < W - B) :
    ∃ N, ∀ fuel, N ≤ fuel → ∃ r : Rectangle,
      detectBorder cfg fuel img = some (.ok (r, ⟨C.R, C.G, C.B, 255⟩)) ∧
      (r.Min.X - B).natAbs ≤ 1 ∧ (r.Min.Y - B).natAbs ≤ 1 ∧
      (r.Max.X - (W - B)).natAbs ≤ 1 ∧ (r.Max.Y - (H - B)).natAbs ≤ 1 := by
  refine ⟨B.toNat, fun fuel hfuel => ⟨⟨⟨B - 1, B - 1⟩, ⟨W - B, H - B⟩⟩, ?_, ?_, ?_, ?_, ?_⟩⟩
  · rw [detectBorder_bordered_exact cfg img W H B C D hb hB ht hd hy1 hy3 hx1 hx3 fuel hfuel,
      rgba_eq]
  all_goals simp only; omega

/-- The witness of C1: a 20 x 28 image with a white border of width 3 around a
black block, threshold 1/10. -/
theorem detectBorder_bordered_witness :
    (∃ N, ∀ fuel, N ≤ fuel → ∃ r : Rectangle,
      detectBorder defaultConfig fuel (borderedImage 20 28 3 white black)
        = some (.ok (r, ⟨255, 255, 255, 255⟩)) ∧
      (r.Min.X - 3).natAbs ≤ 1 ∧ (r.Min.Y - 3).natAbs ≤ 1 ∧
      (r.Max.X - (20 - 3)).natAbs ≤ 1 ∧ (r.Max.Y - (28 - 3)).natAbs ≤ 1) ∧
    detectBorder defaultConfig 3 (borderedImage 20 28 3 white black)
      = some (.ok (⟨⟨2, 2⟩, ⟨17, 25⟩⟩, white)) :=
  ⟨detectBorder_bordered defaultConfig (borderedImage 20 28 3 white black) 20 28 3 white black
    ⟨rfl, fun x y h1 h2 h3 h4 => by simp [borderedImage, h1, h2, h3, h4]⟩
    (by decide) (by decide!) (by decide!) (by decide) (by decide) (by decide) (by decide),
   by decide!⟩

/-! ## Aspect correction -/

/-- The aspect correction shrinks neither dimension and changes at most one. -/
theorem aspectCorrect_le (desiredRatio : ℚ) (width height : Int)
    (hw : 0 < width) (hh : 0 < height) (hr : 0 < desiredRatio) :
    width ≤ (aspectCorrect desiredRatio width height).1 ∧
    height ≤ (aspectCorrect desiredRatio width height).2 ∧
    ((aspectCorrect desiredRatio width height).1 = width ∨
      (aspectCorrect desiredRatio width height).2 = height) := by
  have hhq : (0 : ℚ) < height := by exact_mod_cast hh
  have hwq : (0 : ℚ) < width := by exact_mod_cast hw
  unfold aspectCorrect
  simp only
  split_ifs with h1 h2
  · refine ⟨?_, le_refl _, Or.inr rfl⟩
    rw [Int.le_floor]
    rw [div_lt_iff₀ hhq] at h1
    linarith
  · refine ⟨le_refl _, ?_, Or.inl rfl⟩
    rw [Int.le_floor, le_div_iff₀ hr]
    rw [gt_iff_lt, lt_div_iff₀ hhq] at h2
    linarith
  · exact ⟨le_refl _, le_refl _, Or.inl rfl⟩

/-- C6: for measured width and height above 0 and a desired ratio above 0, the
aspect correction shrinks neither dimension, and changes at most one. -/
theorem aspectCorrect_no_shrink (desiredRatio : ℚ) (width height : Int)
    (hw : 0 < width) (hh : 0 < height) (hr : 0 < desiredRatio) :
    (aspectCorrect desiredRatio width height).1 ≥ width ∧
    (aspectCorrect desiredRatio width height).2 ≥ height ∧
    ((aspectCorrect desiredRatio width height).1 = width ∨
      (aspectCorrect desiredRatio width height).2 = height) :=
  aspectCorrect_le desiredRatio width height hw hh hr

/-- The witness of C6: a 2 x 4 clip and the ratio 5/8. -/
theorem aspectCorrect_no_shrink_witness :
    (aspectCorrect (5 / 8) 2 4).1 ≥ 2 ∧ (aspectCorrect (5 / 8) 2 4).2 ≥ 4 ∧
    ((aspectCorrect (5 / 8) 2 4).1 = 2 ∨ (aspectCorrect (5 / 8) 2 4).2 = 4) :=
  aspectCorrect_no_shrink (5 / 8) 2 4 (by decide) (by decide) (by decide!)

/-- C7 as stated fails: the 1 x 2 clip is narrower than the ratio 5/8, and the
computed width is the measured width, not above it. -/
theorem aspectCorrect_narrow_counterexample :
    (0 : Int) < 1 ∧ (0 : Int) < 2 ∧ (0 : ℚ) < 5 / 8 ∧
    ((1 : Int) : ℚ) / ((2 : Int) : ℚ) < 5 / 8 ∧
    ¬ ((aspectCorrect (5 / 8) 1 2).1 > 1) ∧ aspectCorrect (5 / 8) 1 2 = (1, 2) := by
  decide!

/-- C7, amended: for measured width and height above 0 and a desired ratio
above 0 with width / height below the ratio, the computed width is
floor(height * ratio), at least the measured width, and the computed height
is the measured height. -/
theorem aspectCorrect_narrow (desiredRatio : ℚ) (width height : Int)
    (hw : 0 < width) (hh : 0 < height) (hr : 0 < desiredRatio)
    (hn : (width : ℚ) / (height : ℚ) < desiredRatio) :
    (aspectCorrect desiredRatio width height).1 = ⌊(height : ℚ) * desiredRatio⌋ ∧
    (aspectCorrect desiredRatio width height).1 ≥ width ∧
    (aspectCorrect desiredRatio width height).2 = height := by
  have h := (aspectCorrect_le desiredRatio width height hw hh hr).1
  refine ⟨?_, h, ?_⟩ <;> simp [aspectCorrect, hn]

/-- The witness of amended C7: a 2 x 4 clip and the ratio 5/8. -/
theorem aspectCorrect_narrow_witness :
    (aspectCorrect (5 / 8) 2 4).1 = ⌊((4 : Int) : ℚ) * (5 / 8)⌋ ∧
    (aspectCorrect (5 / 8) 2 4).1 ≥ 2 ∧ (aspectCorrect (5 / 8) 2 4).2 = 4 :=
  aspectCorrect_narrow (5 / 8) 2 4 (by decide) (by decide) (by decide!) (by decide!)


/-! ## Colour parsing -/

theorem hexDigit_of_mem : ∀ c ∈ hexChars, hexDigit c = some (hexVal c) ∧ hexVal c < 16 := by
  decide

theorem parseUint_pair {c : Char} (hc : c ∈ hexChars) :
    ParseUint [c, c] = .ok (hexVal c * 16 + hexVal c) := by
  obtain ⟨h1, h2⟩ := hexDigit_of_mem c hc
  have a : ¬ (hexVal c > 255) := by omega
  have b : ¬ (hexVal c * 16 + hexVal c > 255) := by omega
  simp [ParseUint, parseUintLoop, h1, a, b]

/-- C8: for hex digits a, b, c in either case, parseColor of "abc" and of
"aabbcc" succeed with the same colour (0xaa, 0xbb, 0xcc, 0xFF); "f80" and
"ff8800" both give (0xff, 0x88, 0x00). -/
theorem parseColor_short_long (a b c : Char) (ha : a ∈ hexChars) (hb : b ∈ hexChars)
    (hc : c ∈ hexChars) :
    parseColor [a, b, c]
      = .ok ⟨uint8 (hexVal a * 16 + hexVal a), uint8 (hexVal b * 16 + hexVal b),
          uint8 (hexVal c * 16 + hexVal c), 0xFF⟩ ∧
    parseColor [a, a, b, b, c, c] = parseColor [a, b, c] ∧
    parseColor "f80".toList = .ok ⟨0xff, 0x88, 0x00, 0xFF⟩ ∧
    parseColor "ff8800".toList = .ok ⟨0xff, 0x88, 0x00, 0xFF⟩ := by
  have h3 : parseColor [a, b, c]
      = .ok ⟨uint8 (hexVal a * 16 + hexVal a), uint8 (hexVal b * 16 + hexVal b),
          uint8 (hexVal c * 16 + hexVal c), 0xFF⟩ := by
    simp [parseColor, parseComponent, padComponent, parseUint_pair, ha, hb, hc]
  have h6 : parseColor [a, a, b, b, c, c]
      = .ok ⟨uint8 (hexVal a * 16 + hexVal a), uint8 (hexVal b * 16 + hexVal b),
          uint8 (hexVal c * 16 + hexVal c), 0xFF⟩ := by
    simp [parseColor, parseComponent, padComponent, parseUint_pair, ha, hb, hc]
  exact ⟨h3, h6.trans h3.symm, by decide, by decide⟩

/-- The witness of C8: the digits f, 8, 0. -/
theorem parseColor_short_long_witness :
    parseColor ['f', '8', '0'] = .ok ⟨0xff, 0x88, 0x00, 0xFF⟩ ∧
    parseColor ['f', 'f', '8', '8', '0', '0'] = parseColor ['f', '8', '0'] :=
  have h := parseColor_short_long 'f' '8' '0' (by decide) (by decide) (by decide)
  ⟨h.1, h.2.1⟩

/-- C9 on the code: the 9-byte string "aabbccdde" is accepted, each 3-byte
chunk cut to its first two bytes, and the empty string panics in
padComponent; neither gets the format error. -/
theorem parseColor_other_lengths :
    parseColor "aabbccdde".toList = .ok ⟨0xaa, 0xbc, 0xdd, 0xFF⟩ ∧
    parseColor "".toList = .error .panicSliceBounds := by
  decide

/-- What parseColor does reject by length: every string whose length is not a
multiple of 3 gets the format error. -/
theorem parseColor_length_not_multiple (hexCode : List Char) (h : hexCode.length % 3 ≠ 0) :
    parseColor hexCode = .error .invalidColorLength := by
  simp [parseColor, h]

/-! ## Analysis -/

/-- C10 as stated fails: on the white 8 x 8 image detectBorder returns the
edge-not-found error, and analyzeImage with the border colour "fff" returns
that error too, not the colour. -/
theorem analyzeImage_override_counterexample :
    detectBorder whiteBorderConfig 8 whiteImage = some (.error .edgeNotFound) ∧
    whiteBorderConfig.borderColor ≠ "detect".toList ∧
    parseColor whiteBorderConfig.borderColor = .ok white ∧
    analyzeImage whiteBorderConfig 8 whiteImage = some (.error .edgeNotFound) := by
  decide!

/-- C10, amended: an error of detectBorder is the result of analyzeImage
whatever the border colour; where detectBorder succeeds and the border colour
is a valid hex colour other than "detect", analyzeImage succeeds with the
clip rectangle of detectBorder and that colour as the fill colour. -/
theorem analyzeImage_override (cfg : Config) (fuel : Nat) (img : Image) :
    (∀ e, detectBorder cfg fuel img = some (.error e) →
      analyzeImage cfg fuel img = some (.error e)) ∧
    (∀ r fc c, detectBorder cfg fuel img = some (.ok (r, fc)) →
      cfg.borderColor ≠ "detect".toList → parseColor cfg.borderColor = .ok c →
      analyzeImage cfg fuel img
        = some (.ok (r, decide (r.Max.X - r.Min.X > r.Max.Y - r.Min.Y), c))) := by
  constructor
  · intro e h
    simp [analyzeImage, h]
  · intro r fc c h hne hp
    simp only [analyzeImage, h, if_pos hne, hp]

/-! ## The canvas loops -/

theorem set_Rect (m : RGBAImage) (x y : Int) (c : Color) : (m.Set x y c).Rect = m.Rect := by
  unfold RGBAImage.Set
  split_ifs <;> rfl

theorem set_At (m : RGBAImage) (x y : Int) (c : Color) (a b : Int) :
    (m.Set x y c).At a b
      = if a = x ∧ b = y ∧ (Point.mk a b).In m.Rect then c else m.At a b := by
  unfold RGBAImage.Set RGBAImage.At
  by_cases hin : (Point.mk x y).In m.Rect
  · by_cases hab : a = x ∧ b = y
    · obtain ⟨rfl, rfl⟩ := hab
      simp [hin]
    · have : ¬ (a = x ∧ b = y ∧ (Point.mk a b).In m.Rect) := fun h => hab ⟨h.1, h.2.1⟩
      simp only [if_pos hin, if_neg this, if_neg hab]
  · have : ¬ (a = x ∧ b = y ∧ (Point.mk a b).In m.Rect) := by
      rintro ⟨rfl, rfl, h⟩
      exact hin h
    simp only [if_neg hin, if_neg this]

/-- One column of `Set`s: the pixels written and the pixels kept. -/
theorem column_set (x oy : Int) (col : Nat → Color) (n : Nat) (m : RGBAImage) :
    ((List.range n).foldl (fun im (j : Nat) => im.Set x (oy + j) (col j)) m).Rect = m.Rect ∧
    ∀ a b, ((List.range n).foldl (fun im (j : Nat) => im.Set x (oy + j) (col j)) m).At a b
      = if a = x ∧ oy ≤ b ∧ b < oy + n ∧ (Point.mk a b).In m.Rect
        then col (b - oy).toNat else m.At a b := by
  induction n with
  | zero =>
    refine ⟨rfl, fun a b => ?_⟩
    have : ¬ (a = x ∧ oy ≤ b ∧ b < oy + (0 : Nat) ∧ (Point.mk a b).In m.Rect) := by
      rintro ⟨_, h1, h2, _⟩
      omega
    simp only [List.range_zero, List.foldl_nil, if_neg this]
  | succ n ih =>
    obtain ⟨ihR, ihA⟩ := ih
    rw [List.range_succ, List.foldl_append]
    simp only [List.foldl_cons, List.foldl_nil]
    refine ⟨by rw [set_Rect, ihR], fun a b => ?_⟩
    rw [set_At, ihA, ihR]
    by_cases hb : b = oy + n
    · by_cases h : a = x ∧ (Point.mk a b).In m.Rect
      · have e : (b - oy).toNat = n := by omega
        rw [if_pos ⟨h.1, hb, h.2⟩, if_pos ⟨h.1, by omega, by push_cast; omega, h.2⟩, e]
      · have n1 : ¬ (a = x ∧ b = oy + n ∧ (Point.mk a b).In m.Rect) := fun k => h ⟨k.1, k.2.2⟩
        have n2 : ¬ (a = x ∧ oy ≤ b ∧ b < oy + n ∧ (Point.mk a b).In m.Rect) :=
          fun k => h ⟨k.1, k.2.2.2⟩
        have n3 : ¬ (a = x ∧ oy ≤ b ∧ b < oy + (n + 1 : Nat) ∧ (Point.mk a b).In m.Rect) :=
          fun k => h ⟨k.1, k.2.2.2⟩
        rw [if_neg n1, if_neg n2, if_neg n3]
    · have n1 : ¬ (a = x ∧ b = oy + n ∧ (Point.mk a b).In m.Rect) := fun k => hb k.2.1
      rw [if_neg n1]
      by_cases h : a = x ∧ oy ≤ b ∧ b < oy + n ∧ (Point.mk a b).In m.Rect
      · rw [if_pos h, if_pos ⟨h.1, h.2.1, by push_cast; omega, h.2.2.2⟩]
      · have n3 : ¬ (a = x ∧ oy ≤ b ∧ b < oy + (n + 1 : Nat) ∧ (Point.mk a b).In m.Rect) := by
          rintro ⟨k1, k2, k3, k4⟩
          exact h ⟨k1, k2, by push_cast at k3; omega, k4⟩
        rw [if_neg h, if_neg n3]

/-- A grid of `Set`s, column by column: the pixels written and the pixels
kept. -/
theorem grid_set (ox oy : Int) (col : Nat → Nat → Color) (h : Nat) (w : Nat) (m : RGBAImage) :
    ((List.range w).foldl (fun im (i : Nat) =>
        (List.range h).foldl (fun im (j : Nat) => im.Set (ox + i) (oy + j) (col i j)) im) m).Rect
      = m.Rect ∧
    ∀ a b, ((List.range w).foldl (fun im (i : Nat) =>
        (List.range h).foldl (fun im (j : Nat) => im.Set (ox + i) (oy + j) (col i j)) im) m).At a b
      = if ox ≤ a ∧ a < ox + w ∧ oy ≤ b ∧ b < oy + h ∧ (Point.mk a b).In m.Rect
        then col (a - ox).toNat (b - oy).toNat else m.At a b := by
  induction w with
  | zero =>
    refine ⟨rfl, fun a b => ?_⟩
    have : ¬ (ox ≤ a ∧ a < ox + (0 : Nat) ∧ oy ≤ b ∧ b < oy + h ∧ (Point.mk a b).In m.Rect) := by
      rintro ⟨h1, h2, _⟩
      omega
    simp only [List.range_zero, List.foldl_nil, if_neg this]
  | succ w ih =>
    obtain ⟨ihR, ihA⟩ := ih
    rw [List.range_succ, List.foldl_append]
    simp only [List.foldl_cons, List.foldl_nil]
    obtain ⟨cR, cA⟩ := column_set (ox + w) oy (col w) h
      ((List.range w).foldl (fun im (i : Nat) =>
        (List.range h).foldl (fun im (j : Nat) => im.Set (ox + i) (oy + j) (col i j)) im) m)
    refine ⟨by rw [cR, ihR], fun a b => ?_⟩
    rw [cA, ihA, ihR]
    by_cases ha : a = ox + w
    · by_cases hh : oy ≤ b ∧ b < oy + h ∧ (Point.mk a b).In m.Rect
      · have e : (a - ox).toNat = w := by omega
        rw [if_pos ⟨ha, hh⟩, if_pos ⟨by omega, by push_cast; omega, hh⟩, e]
      · have n1 : ¬ (a = ox + w ∧ oy ≤ b ∧ b < oy + h ∧ (Point.mk a b).In m.Rect) :=
          fun k => hh k.2
        have n2 : ¬ (ox ≤ a ∧ a < ox + w ∧ oy ≤ b ∧ b < oy + h ∧ (Point.mk a b).In m.Rect) :=
          fun k => hh k.2.2
        have n3 : ¬ (ox ≤ a ∧ a < ox + (w + 1 : Nat) ∧ oy ≤ b ∧ b < oy + h ∧
            (Point.mk a b).In m.Rect) := fun k => hh k.2.2
        rw [if_neg n1, if_neg n2, if_neg n3]
    · have n1 : ¬ (a = ox + w ∧ oy ≤ b ∧ b < oy + h ∧ (Point.mk a b).In m.Rect) :=
        fun k => ha k.1
      rw [if_neg n1]
      by_cases hh : ox ≤ a ∧ a < ox + w ∧ oy ≤ b ∧ b < oy + h ∧ (Point.mk a b).In m.Rect
      · rw [if_pos hh, if_pos ⟨hh.1, by push_cast; omega, hh.2.2⟩]
      · have n3 : ¬ (ox ≤ a ∧ a < ox + (w + 1 : Nat) ∧ oy ≤ b ∧ b < oy + h ∧
            (Point.mk a b).In m.Rect) := by
          rintro ⟨k1, k2, k3⟩
          exact hh ⟨k1, by push_cast at k2; omega, k3⟩
        rw [if_neg hh, if_neg n3]

theorem foldl_congr_inv {α β : Type} (P : α → Prop) (f g : α → β → α)
    (hP : ∀ a b, P a → P (g a b)) (hfg : ∀ a b, P a → f a b = g a b) :
    ∀ (l : List β) (a : α), P a → l.foldl f a = l.foldl g a ∧ P (l.foldl g a) := by
  intro l
  induction l with
  | nil => intro a ha; exact ⟨rfl, ha⟩
  | cons b l ih =>
    intro a ha
    simp only [List.foldl_cons]
    rw [hfg a b ha]
    exact ih (g a b) (hP a b ha)

/-- The loop of `fillImage` keeps the rectangle and sets every pixel of it. -/
theorem fillImage_spec (img : RGBAImage) (c : Color) :
    (fillImage img c).Rect = img.Rect ∧
    ∀ a b, (fillImage img c).At a b
      = if (Point.mk a b).In img.Rect then c else ⟨0, 0, 0, 0⟩ := by
  have inner : ∀ (i : Nat) (im : RGBAImage), im.Rect = img.Rect →
      (List.range (im.Bounds.Max.Y - im.Bounds.Min.Y).toNat).foldl
          (fun im (j : Nat) => im.Set (im.Bounds.Min.X + i) (im.Bounds.Min.Y + j) c) im
        = (List.range (img.Rect.Max.Y - img.Rect.Min.Y).toNat).foldl
          (fun im (j : Nat) => im.Set (img.Rect.Min.X + i) (img.Rect.Min.Y + j) c) im := by
    intro i im him
    have e : im.Bounds = img.Rect := him
    rw [e]
    exact (foldl_congr_inv (fun im => im.Rect = img.Rect)
      (fun im (j : Nat) => im.Set (im.Bounds.Min.X + i) (im.Bounds.Min.Y + j) c)
      (fun im (j : Nat) => im.Set (img.Rect.Min.X + i) (img.Rect.Min.Y + j) c)
      (fun a b ha => by beta_reduce; rw [set_Rect]; exact ha)
      (fun a b ha => by
        have e : a.Bounds = img.Rect := ha
        beta_reduce
        rw [e]) _ im him).1
  have outer : fillImage img c
      = (List.range (img.Rect.Max.X - img.Rect.Min.X).toNat).foldl (fun im (i : Nat) =>
          (List.range (img.Rect.Max.Y - img.Rect.Min.Y).toNat).foldl
            (fun im (j : Nat) => im.Set (img.Rect.Min.X + i) (img.Rect.Min.Y + j) c) im) img := by
    unfold fillImage
    exact (foldl_congr_inv (fun im => im.Rect = img.Rect) _
      (fun im (i : Nat) =>
          (List.range (img.Rect.Max.Y - img.Rect.Min.Y).toNat).foldl
            (fun im (j : Nat) => im.Set (img.Rect.Min.X + i) (img.Rect.Min.Y + j) c) im)
      (fun a b ha => by
        beta_reduce
        rw [(column_set (img.Rect.Min.X + b) img.Rect.Min.Y (fun _ => c) _ a).1]; exact ha)
      (fun a b ha => inner b a ha) _ img rfl).1
  obtain ⟨gR, gA⟩ := grid_set img.Rect.Min.X img.Rect.Min.Y (fun _ _ => c)
    (img.Rect.Max.Y - img.Rect.Min.Y).toNat (img.Rect.Max.X - img.Rect.Min.X).toNat img
  rw [outer]
  refine ⟨gR, fun a b => ?_⟩
  rw [gA]
  by_cases hin : (Point.mk a b).In img.Rect
  · rw [if_pos hin, if_pos]
    simp only [Point.In] at hin
    refine ⟨by omega, by omega, by omega, by omega, ?_⟩
    simpa only [Point.In] using hin
  · have n : ¬ (img.Rect.Min.X ≤ a ∧ a < img.Rect.Min.X + ((img.Rect.Max.X - img.Rect.Min.X).toNat : Int)
        ∧ img.Rect.Min.Y ≤ b ∧ b < img.Rect.Min.Y + ((img.Rect.Max.Y - img.Rect.Min.Y).toNat : Int)
        ∧ (Point.mk a b).In img.Rect) := fun k => hin k.2.2.2.2
    rw [if_neg hin, if_neg n]
    unfold RGBAImage.At
    rw [if_neg hin]

/-- The copy loop keeps the rectangle and writes the grid of its targets. -/
theorem copyPixels_spec (img : RGBAImage) (source : Image) (clipRect : Rectangle)
    (needsRotation : Bool) (width height offset : Int) :
    (copyPixels img source clipRect needsRotation width height offset).Rect = img.Rect ∧
    ∀ a b, (copyPixels img source clipRect needsRotation width height offset).At a b
      = if offset ≤ a ∧ a < offset + width.toNat ∧ offset ≤ b ∧ b < offset + height.toNat ∧
          (Point.mk a b).In img.Rect
        then
          (if needsRotation then
            source.At (clipRect.Min.X + (b - offset)) (clipRect.Min.Y + (width - (a - offset)))
          else source.At (clipRect.Min.X + (a - offset)) (clipRect.Min.Y + (b - offset)))
        else img.At a b := by
  have e : copyPixels img source clipRect needsRotation width height offset
      = (List.range width.toNat).foldl (fun im (i : Nat) =>
          (List.range height.toNat).foldl
            (fun im (j : Nat) => im.Set (offset + i) (offset + j)
              (if needsRotation then
                source.At (clipRect.Min.X + (j : Int)) (clipRect.Min.Y + (width - (i : Int)))
              else source.At (clipRect.Min.X + (i : Int)) (clipRect.Min.Y + (j : Int)))) im)
          img := by
    unfold copyPixels
    cases needsRotation <;> simp [add_comm]
  obtain ⟨gR, gA⟩ := grid_set offset offset
    (fun i j => if needsRotation then
        source.At (clipRect.Min.X + (j : Int)) (clipRect.Min.Y + (width - (i : Int)))
      else source.At (clipRect.Min.X + (i : Int)) (clipRect.Min.Y + (j : Int)))
    height.toNat width.toNat img
  rw [e]
  refine ⟨gR, fun a b => ?_⟩
  rw [gA]
  by_cases h : offset ≤ a ∧ a < offset + width.toNat ∧ offset ≤ b ∧ b < offset + height.toNat ∧
      (Point.mk a b).In img.Rect
  · have e1 : (((a - offset).toNat : Nat) : Int) = a - offset := by omega
    have e2 : (((b - offset).toNat : Nat) : Int) = b - offset := by omega
    rw [if_pos h, if_pos h]
    simp only [e1, e2]
  · rw [if_neg h, if_neg h]

/-! ## Composition -/

theorem marginOffset_nonneg (cfg : Config) (calcWidth : Int) (hc : 0 ≤ calcWidth)
    (hiw : 0 < cfg.targetWidth - 2 * cfg.borderWidth)
    (hm : 0 ≤ cfg.borderWidth + cfg.bleedWidth) : 0 ≤ marginOffset cfg calcWidth := by
  unfold marginOffset
  simp only
  apply Int.floor_nonneg.2
  have : (0 : ℚ) ≤ calcWidth := by exact_mod_cast hc
  exact mul_nonneg hm (div_nonneg this hiw.le)

/-- C4: without rotation, for a clip rectangle of positive width and height,
positive inner target width and height and borderWidth + bleedWidth ≥ 0, the
canvas is (calcWidth + 2 offset) x (calcHeight + 2 offset), its pixel
(offset + x, offset + y) is the source pixel (Min.X + x, Min.Y + y) for
0 ≤ x < width and 0 ≤ y < height, and every other pixel of it is the fill
colour. -/
theorem resizeImage_no_rotation (cfg : Config) (source : Image) (clipRect : Rectangle)
    (fillColor : Color) (width height calcWidth calcHeight offset : Int)
    (hwd : width = clipRect.Max.X - clipRect.Min.X)
    (hht : height = clipRect.Max.Y - clipRect.Min.Y)
    (hw : 0 < width) (hh : 0 < height)
    (hiw : 0 < cfg.targetWidth - 2 * cfg.borderWidth)
    (hih : 0 < cfg.targetHeight - 2 * cfg.borderWidth)
    (hm : 0 ≤ cfg.borderWidth + cfg.bleedWidth)
    (hcalc : aspectCorrect (desiredRatio cfg) width height = (calcWidth, calcHeight))
    (hoff : offset = marginOffset cfg calcWidth) :
    (resizeImage cfg source clipRect false fillColor).Bounds
      = ⟨⟨0, 0⟩, ⟨calcWidth + 2 * offset, calcHeight + 2 * offset⟩⟩ ∧
    (∀ x y, 0 ≤ x → x < width → 0 ≤ y → y < height →
      (resizeImage cfg source clipRect false fillColor).At (offset + x) (offset + y)
        = source.At (clipRect.Min.X + x) (clipRect.Min.Y + y)) ∧
    (∀ px py, (Point.mk px py).In (resizeImage cfg source clipRect false fillColor).Bounds →
      ¬ (offset ≤ px ∧ px < offset + width ∧ offset ≤ py ∧ py < offset + height) →
      (resizeImage cfg source clipRect false fillColor).At px py = fillColor) := by
  have hr : 0 < desiredRatio cfg := div_pos hiw hih
  obtain ⟨hcw, hch, _⟩ := aspectCorrect_le (desiredRatio cfg) width height hw hh hr
  rw [hcalc] at hcw hch
  simp only at hcw hch
  have ho : 0 ≤ offset := hoff ▸ marginOffset_nonneg cfg calcWidth (by omega) hiw hm
  have hrect : Rect 0 0 (calcWidth + 2 * offset) (calcHeight + 2 * offset)
      = ⟨⟨0, 0⟩, ⟨calcWidth + 2 * offset, calcHeight + 2 * offset⟩⟩ := by
    have h1 : ¬ (0 > calcWidth + 2 * offset) := by omega
    have h2 : ¬ (0 > calcHeight + 2 * offset) := by omega
    simp [Rect, h1, h2]
  have e : resizeImage cfg source clipRect false fillColor
      = copyPixels (fillImage (NewRGBA ⟨⟨0, 0⟩, ⟨calcWidth + 2 * offset, calcHeight + 2 * offset⟩⟩)
          fillColor) source clipRect false width height offset := by
    simp only [resizeImage, measuredSize, Bool.false_eq_true, if_false, ← hwd, ← hht, hcalc,
      ← hoff, hrect]
  obtain ⟨fR, fA⟩ := fillImage_spec
    (NewRGBA ⟨⟨0, 0⟩, ⟨calcWidth + 2 * offset, calcHeight + 2 * offset⟩⟩) fillColor
  obtain ⟨cR, cA⟩ := copyPixels_spec
    (fillImage (NewRGBA ⟨⟨0, 0⟩, ⟨calcWidth + 2 * offset, calcHeight + 2 * offset⟩⟩) fillColor)
    source clipRect false width height offset
  have hR : (resizeImage cfg source clipRect false fillColor).Rect
      = ⟨⟨0, 0⟩, ⟨calcWidth + 2 * offset, calcHeight + 2 * offset⟩⟩ := by
    rw [e, cR, fR]; rfl
  have ew : ((width.toNat : Nat) : Int) = width := by omega
  have eh : ((height.toNat : Nat) : Int) = height := by omega
  refine ⟨hR, ?_, ?_⟩
  · intro x y hx0 hx1 hy0 hy1
    rw [e, cA, if_pos]
    · simp
    · rw [fR]
      simp only [Point.In, NewRGBA]
      omega
  · intro px py hin hout
    have hin2 : (Point.mk px py).In
        (NewRGBA ⟨⟨0, 0⟩, ⟨calcWidth + 2 * offset, calcHeight + 2 * offset⟩⟩).Rect := by
      have : (resizeImage cfg source clipRect false fillColor).Bounds
          = ⟨⟨0, 0⟩, ⟨calcWidth + 2 * offset, calcHeight + 2 * offset⟩⟩ := hR
      rw [this] at hin
      exact hin
    rw [e, cA, if_neg, fA, if_pos hin2]
    rintro ⟨k1, k2, k3, k4, _⟩
    exact hout ⟨k1, by omega, k3, by omega⟩

/-- The witness of C4: the 11 x 15 clip at (2, 3) of the 20 x 20 coordinate
image under the default configuration, which gives a 13 x 17 canvas with
offset 1. -/
theorem resizeImage_no_rotation_witness :
    (resizeImage defaultConfig coordImage ⟨⟨2, 3⟩, ⟨13, 18⟩⟩ false white).Bounds
      = ⟨⟨0, 0⟩, ⟨11 + 2 * 1, 15 + 2 * 1⟩⟩ ∧
    (∀ x y, 0 ≤ x → x < 11 → 0 ≤ y → y < 15 →
      (resizeImage defaultConfig coordImage ⟨⟨2, 3⟩, ⟨13, 18⟩⟩ false white).At (1 + x) (1 + y)
        = coordImage.At (2 + x) (3 + y)) ∧
    (∀ px py, (Point.mk px py).In
        (resizeImage defaultConfig coordImage ⟨⟨2, 3⟩, ⟨13, 18⟩⟩ false white).Bounds →
      ¬ (1 ≤ px ∧ px < 1 + 11 ∧ 1 ≤ py ∧ py < 1 + 15) →
      (resizeImage defaultConfig coordImage ⟨⟨2, 3⟩, ⟨13, 18⟩⟩ false white).At px py = white) :=
  resizeImage_no_rotation defaultConfig coordImage ⟨⟨2, 3⟩, ⟨13, 18⟩⟩ white 11 15 11 15 1
    (by decide) (by decide) (by decide) (by decide) (by decide!) (by decide!) (by decide!)
    (by decide!) (by decide!)

/-- With rotation, canvas pixel (offset + x, offset + y) is the source pixel
(Min.X + y, Min.Y + width - x), width being the height of the clip: column
x = 0 of the region is read from row Max.Y, below the clip, and no pixel is
read from row Min.Y. -/
theorem resizeImage_rotation_reads (cfg : Config) (source : Image) (clipRect : Rectangle)
    (fillColor : Color) (width height calcWidth calcHeight offset : Int)
    (hwd : width = clipRect.Max.Y - clipRect.Min.Y)
    (hht : height = clipRect.Max.X - clipRect.Min.X)
    (hw : 0 < width) (hh : 0 < height)
    (hiw : 0 < cfg.targetWidth - 2 * cfg.borderWidth)
    (hih : 0 < cfg.targetHeight - 2 * cfg.borderWidth)
    (hm : 0 ≤ cfg.borderWidth + cfg.bleedWidth)
    (hcalc : aspectCorrect (desiredRatio cfg) width height = (calcWidth, calcHeight))
    (hoff : offset = marginOffset cfg calcWidth) :
    ∀ x y, 0 ≤ x → x < width → 0 ≤ y → y < height →
      (resizeImage cfg source clipRect true fillColor).At (offset + x) (offset + y)
        = source.At (clipRect.Min.X + y) (clipRect.Min.Y + (width - x)) := by
  have hr : 0 < desiredRatio cfg := div_pos hiw hih
  obtain ⟨hcw, hch, _⟩ := aspectCorrect_le (desiredRatio cfg) width height hw hh hr
  rw [hcalc] at hcw hch
  simp only at hcw hch
  have ho : 0 ≤ offset := hoff ▸ marginOffset_nonneg cfg calcWidth (by omega) hiw hm
  have hrect : Rect 0 0 (calcWidth + 2 * offset) (calcHeight + 2 * offset)
      = ⟨⟨0, 0⟩, ⟨calcWidth + 2 * offset, calcHeight + 2 * offset⟩⟩ := by
    have h1 : ¬ (0 > calcWidth + 2 * offset) := by omega
    have h2 : ¬ (0 > calcHeight + 2 * offset) := by omega
    simp [Rect, h1, h2]
  have e : resizeImage cfg source clipRect true fillColor
      = copyPixels (fillImage (NewRGBA ⟨⟨0, 0⟩, ⟨calcWidth + 2 * offset, calcHeight + 2 * offset⟩⟩)
          fillColor) source clipRect true width height offset := by
    simp only [resizeImage, measuredSize, if_true, ← hwd, ← hht, hcalc, ← hoff, hrect]
  obtain ⟨fR, _⟩ := fillImage_spec
    (NewRGBA ⟨⟨0, 0⟩, ⟨calcWidth + 2 * offset, calcHeight + 2 * offset⟩⟩) fillColor
  obtain ⟨_, cA⟩ := copyPixels_spec
    (fillImage (NewRGBA ⟨⟨0, 0⟩, ⟨calcWidth + 2 * offset, calcHeight + 2 * offset⟩⟩) fillColor)
    source clipRect true width height offset
  intro x y hx0 hx1 hy0 hy1
  rw [e, cA, if_pos]
  · simp
  · rw [fR]
    simp only [Point.In, NewRGBA]
    omega

/-- C5 on the code: for the 3 x 2 clip at (1, 1) of the coordinate image, rows
1 and 2, the rotated copy fills column 0 of the 2 x 3 canvas from source row
3, outside the clip, and copies no pixel of clip row 1. -/
theorem resizeImage_rotation_off_by_one :
    (resizeImage defaultConfig coordImage ⟨⟨1, 1⟩, ⟨4, 3⟩⟩ true white).Bounds
      = ⟨⟨0, 0⟩, ⟨2, 3⟩⟩ ∧
    (resizeImage defaultConfig coordImage ⟨⟨1, 1⟩, ⟨4, 3⟩⟩ true white).At 0 0
      = coordImage.At 1 3 ∧
    (resizeImage defaultConfig coordImage ⟨⟨1, 1⟩, ⟨4, 3⟩⟩ true white).At 0 1
      = coordImage.At 2 3 ∧
    (resizeImage defaultConfig coordImage ⟨⟨1, 1⟩, ⟨4, 3⟩⟩ true white).At 0 2
      = coordImage.At 3 3 ∧
    (∀ x ∈ [(0 : Int), 1], ∀ y ∈ [(0 : Int), 1, 2], ∀ sx ∈ [(1 : Int), 2, 3],
      (resizeImage defaultConfig coordImage ⟨⟨1, 1⟩, ⟨4, 3⟩⟩ true white).At x y
        ≠ coordImage.At sx 1) := by
  decide!

/-- The test on squares is the test `t ≤ sqrt(num) / mc` over the reals, with
`mc = sqrt(255^2 * 3)`. -/
theorem distGE_iff_real (c1 c2 : Color) (t : ℚ) :
    distGE c1 c2 t ↔
      (t : ℝ) ≤ Real.sqrt (colorDistanceNum c1 c2 : ℝ) / Real.sqrt ((255 : ℝ) ^ 2 * 3) := by
  have hq : ((colorDistanceSq c1 c2 : ℚ) : ℝ)
      = (colorDistanceNum c1 c2 : ℝ) / ((255 : ℝ) ^ 2 * 3) := by
    simp [colorDistanceSq, mcSq]
    norm_num
  rw [← Real.sqrt_div' _ (by positivity), ← hq]
  unfold distGE
  constructor
  · rintro (h | h)
    · exact le_trans (by exact_mod_cast h) (Real.sqrt_nonneg _)
    · apply Real.le_sqrt_of_sq_le
      have : ((t * t : ℚ) : ℝ) ≤ ((colorDistanceSq c1 c2 : ℚ) : ℝ) := by exact_mod_cast h
      rw [sq]
      exact_mod_cast this
  · intro h
    by_cases ht : t ≤ 0
    · exact Or.inl ht
    · right
      have ht' : (0 : ℝ) < t := by exact_mod_cast not_le.1 ht
      have := (Real.le_sqrt' ht').1 h
      rw [sq] at this
      exact_mod_cast this

/-! ## Colour metrics -/

theorem sq_diff_le (x y : Fin 256) : ((x.val : Int) - y.val) ^ 2 ≤ 65025 := by
  have hx := x.isLt
  have hy := y.isLt
  have h1 : (x.val : Int) - y.val ≤ 255 := by omega
  have h2 : -255 ≤ (x.val : Int) - y.val := by omega
  nlinarith

theorem colorDistanceNum_le (a b : Color) : colorDistanceNum a b ≤ 195075 := by
  have h1 := sq_diff_le (rgba b).R (rgba a).R
  have h2 := sq_diff_le (rgba b).G (rgba a).G
  have h3 := sq_diff_le (rgba b).B (rgba a).B
  simp only [colorDistanceNum]
  omega

/-- C11: for all colours a and b, colorDistance(a, b) lies in [0, 1]: with num
the sum of the squared differences of the R, G and B channels, the square
num / (255^2 * 3) does, and so does the Euclidean distance sqrt(num) divided
by sqrt(3 * 255^2). -/
theorem colorDistance_normalised (a b : Color) :
    (colorDistanceNum a b : Int) = ((b.R.val : Int) - a.R.val) ^ 2
      + ((b.G.val : Int) - a.G.val) ^ 2 + ((b.B.val : Int) - a.B.val) ^ 2 ∧
    0 ≤ colorDistanceSq a b ∧ colorDistanceSq a b ≤ 1 ∧
    0 ≤ Real.sqrt (colorDistanceNum a b : ℝ) / Real.sqrt ((255 : ℝ) ^ 2 * 3) ∧
    Real.sqrt (colorDistanceNum a b : ℝ) / Real.sqrt ((255 : ℝ) ^ 2 * 3) ≤ 1 := by
  have hle : (colorDistanceNum a b : ℚ) ≤ 195075 := by exact_mod_cast colorDistanceNum_le a b
  have hleR : (colorDistanceNum a b : ℝ) ≤ (255 : ℝ) ^ 2 * 3 := by
    have : (colorDistanceNum a b : ℝ) ≤ 195075 := by exact_mod_cast colorDistanceNum_le a b
    linarith
  have hm : (mcSq : ℚ) = 195075 := by norm_num [mcSq]
  refine ⟨?_, ?_, ?_, ?_, ?_⟩
  · simp only [colorDistanceNum, rgba_eq]
    exact Int.toNat_of_nonneg (by positivity)
  · unfold colorDistanceSq
    positivity
  · unfold colorDistanceSq
    rw [hm, div_le_one (by norm_num)]
    exact hle
  · positivity
  · rw [div_le_one (Real.sqrt_pos.2 (by norm_num))]
    exact Real.sqrt_le_sqrt hleR

/-- C12: colorDistance is symmetric: the sum under the root, its normalised
square, and every threshold test agree on (a, b) and (b, a). -/
theorem colorDistance_symm (a b : Color) :
    colorDistanceNum a b = colorDistanceNum b a ∧
    colorDistanceSq a b = colorDistanceSq b a ∧
    (∀ t : ℚ, distGE a b t ↔ distGE b a t) := by
  have h := colorDistanceNum_comm a b
  refine ⟨h, ?_, fun t => ?_⟩
  · simp only [colorDistanceSq, h]
  · simp only [distGE, colorDistanceSq, h]

/-- C13: averageColor of the one-element list [c] is (c.R, c.G, c.B) with
alpha 255. -/
theorem averageColor_singleton (c : Color) :
    averageColor [c] = .ok ⟨c.R, c.G, c.B, 255⟩ := by
  rcases c with ⟨R, G, B, A⟩
  simp [averageColor, Color.RGBA, widen_eq, List.foldl]
  refine ⟨?_, ?_, ?_⟩ <;>
    first
      | (clear G B A; revert R; decide!)
      | (clear R B A; revert G; decide!)
      | (clear R G A; revert B; decide!)

/-- In exact arithmetic the corrected size is within one pixel of the ratio:
calcHeight * r - 1 < calcWidth ≤ calcHeight * r for a narrower clip,
calcWidth / r - 1 < calcHeight ≤ calcWidth / r for a wider one, calcWidth =
calcHeight * r for an equal one.  The float64 computation is
`aspectCorrect64`. -/
theorem aspectCorrect_exact_within_one (r : ℚ) (width height : Int)
    (_hw : 0 < width) (hh : 0 < height) (_hr : 0 < r) :
    ((width : ℚ) / (height : ℚ) < r →
      ((aspectCorrect r width height).2 : ℚ) * r - 1 < (aspectCorrect r width height).1 ∧
      ((aspectCorrect r width height).1 : ℚ) ≤ (aspectCorrect r width height).2 * r) ∧
    ((width : ℚ) / (height : ℚ) > r →
      ((aspectCorrect r width height).1 : ℚ) / r - 1 < (aspectCorrect r width height).2 ∧
      ((aspectCorrect r width height).2 : ℚ) ≤ (aspectCorrect r width height).1 / r) ∧
    ((width : ℚ) / (height : ℚ) = r →
      ((aspectCorrect r width height).1 : ℚ) = (aspectCorrect r width height).2 * r) := by
  have hhq : (0 : ℚ) < height := by exact_mod_cast hh
  refine ⟨fun h => ?_, fun h => ?_, fun h => ?_⟩
  · simp only [aspectCorrect, if_pos h]
    exact ⟨by linarith [Int.lt_floor_add_one ((height : ℚ) * r)], Int.floor_le _⟩
  · have hn : ¬ ((width : ℚ) / (height : ℚ) < r) := not_lt.2 h.le
    simp only [aspectCorrect, if_neg hn, if_pos h]
    exact ⟨by linarith [Int.lt_floor_add_one ((width : ℚ) / r)], Int.floor_le _⟩
  · have hn : ¬ ((width : ℚ) / (height : ℚ) < r) := by rw [h]; exact lt_irrefl _
    have hn2 : ¬ ((width : ℚ) / (height : ℚ) > r) := by rw [h]; exact lt_irrefl _
    simp only [aspectCorrect, if_neg hn, if_neg hn2]
    rw [← h]
    field_simp

/-! ## The average of a list of colours -/

theorem foldl_sum_mod (g : Color → Nat) (hg : ∀ c, g c ≤ 65535) :
    ∀ (l : List Color) (s : Nat), s + 65535 * l.length < 2 ^ 64 →
      l.foldl (fun s c => (s + g c) % 2 ^ 64) s = s + (l.map g).sum := by
  intro l
  induction l with
  | nil => intro s _; simp
  | cons c l ih =>
    intro s hs
    have hc := hg c
    simp only [List.length_cons] at hs
    have h1 : (s + g c) % 2 ^ 64 = s + g c := Nat.mod_eq_of_lt (by omega)
    simp only [List.foldl_cons, List.map_cons, List.sum_cons, h1]
    rw [ih (s + g c) (by omega)]
    omega

theorem widened_sum (f : Color → Fin 256) (l : List Color) :
    (l.map (fun c => (f c).val ||| ((f c).val <<< 8))).sum = 257 * channelSum f l := by
  induction l with
  | nil => simp [channelSum]
  | cons c l ih =>
    rw [List.map_cons, List.sum_cons, ih, widen_eq]
    simp only [channelSum, List.map_cons, List.sum_cons]
    ring

theorem channelSum_le (f : Color → Fin 256) (l : List Color) :
    channelSum f l ≤ 255 * l.length := by
  induction l with
  | nil => simp [channelSum]
  | cons c l ih =>
    have := (f c).isLt
    simp only [channelSum, List.map_cons, List.sum_cons, List.length_cons] at ih ⊢
    omega

/-- The high byte of the mean of the widened channel: it is the floor mean of
the 8-bit channel or one above it. -/
theorem high_byte_mean (S n : Nat) (hn : 0 < n) (hS : S ≤ 255 * n) :
    (uint8 ((257 * S / n) >>> 8)).val = 257 * S / n / 256 ∧
    S / n ≤ 257 * S / n / 256 ∧ 257 * S / n / 256 ≤ S / n + 1 := by
  have hdm := Nat.div_add_mod S n
  have hml := Nat.mod_lt S hn
  have hv : 257 * S / n / 256 = 257 * S / (n * 256) := Nat.div_div_eq_div_mul _ _ _
  have hpos : 0 < n * 256 := by omega
  have hlt : 257 * S / (n * 256) < 256 := by
    rw [Nat.div_lt_iff_lt_mul hpos]
    omega
  have hlow : S / n ≤ 257 * S / (n * 256) := by
    rw [Nat.le_div_iff_mul_le hpos]
    have e : S / n * (n * 256) = 256 * (n * (S / n)) := by ring
    rw [e]
    generalize n * (S / n) = A at hdm
    omega
  have hup : 257 * S / (n * 256) < S / n + 2 := by
    rw [Nat.div_lt_iff_lt_mul hpos]
    have e : (S / n + 2) * (n * 256) = 256 * (n * (S / n)) + 512 * n := by ring
    rw [e]
    generalize n * (S / n) = A at hdm
    omega
  refine ⟨?_, by rw [hv]; exact hlow, by rw [hv]; omega⟩
  simp only [uint8, Nat.shiftRight_eq_div_pow]
  have e8 : (2 : Nat) ^ 8 = 256 := by norm_num
  rw [e8, hv]
  exact Nat.mod_eq_of_lt hlt

/-- C14 as stated fails: the red channels 85, 86, 86 have the floor mean
257 / 3 = 85, and averageColor gives 86. -/
theorem averageColor_mean_counterexample :
    channelSum Color.R [⟨85, 0, 0, 255⟩, ⟨86, 0, 0, 255⟩, ⟨86, 0, 0, 255⟩] / 3 = 85 ∧
    averageColor [⟨85, 0, 0, 255⟩, ⟨86, 0, 0, 255⟩, ⟨86, 0, 0, 255⟩]
      = .ok ⟨86, 0, 0, 255⟩ := by
  decide

/-- C14, amended: for a non-empty list of fewer than 2^48 colours, each of the
R, G and B channels of averageColor's result is floor(floor(257 * sum / len) /
256), the high byte of the mean of the channel widened to 16 bits, which is
floor(sum / len) or one above it, and alpha is 255. -/
theorem averageColor_mean (colors : List Color) (hne : colors ≠ [])
    (hlen : colors.length < 2 ^ 48) :
    ∃ c, averageColor colors = .ok c ∧ c.A = 255 ∧
      c.R.val = 257 * channelSum Color.R colors / colors.length / 256 ∧
      c.G.val = 257 * channelSum Color.G colors / colors.length / 256 ∧
      c.B.val = 257 * channelSum Color.B colors / colors.length / 256 ∧
      channelSum Color.R colors / colors.length ≤ c.R.val ∧
      c.R.val ≤ channelSum Color.R colors / colors.length + 1 ∧
      channelSum Color.G colors / colors.length ≤ c.G.val ∧
      c.G.val ≤ channelSum Color.G colors / colors.length + 1 ∧
      channelSum Color.B colors / colors.length ≤ c.B.val ∧
      c.B.val ≤ channelSum Color.B colors / colors.length + 1 := by
  have hn : 0 < colors.length := List.length_pos.2 hne
  have hn0 : colors.length ≠ 0 := by omega
  have hb : 0 + 65535 * colors.length < 2 ^ 64 := by
    have : (2 : Nat) ^ 64 = 65536 * 2 ^ 48 := by norm_num
    omega
  have hw : ∀ (f : Color → Fin 256) (c : Color), (f c).val ||| ((f c).val <<< 8) ≤ 65535 := by
    intro f c
    rw [widen_eq]
    have := (f c).isLt
    omega
  have sR := foldl_sum_mod (fun c => c.R.val ||| (c.R.val <<< 8)) (hw Color.R) colors 0 hb
  have sG := foldl_sum_mod (fun c => c.G.val ||| (c.G.val <<< 8)) (hw Color.G) colors 0 hb
  have sB := foldl_sum_mod (fun c => c.B.val ||| (c.B.val <<< 8)) (hw Color.B) colors 0 hb
  rw [widened_sum Color.R, Nat.zero_add] at sR
  rw [widened_sum Color.G, Nat.zero_add] at sG
  rw [widened_sum Color.B, Nat.zero_add] at sB
  obtain ⟨r1, r2, r3⟩ := high_byte_mean _ _ hn (channelSum_le Color.R colors)
  obtain ⟨g1, g2, g3⟩ := high_byte_mean _ _ hn (channelSum_le Color.G colors)
  obtain ⟨b1, b2, b3⟩ := high_byte_mean _ _ hn (channelSum_le Color.B colors)
  refine ⟨_, by simp only [averageColor, Color.RGBA, if_neg hn0, sR, sG, sB]; rfl, rfl,
    r1, g1, b1, ?_, ?_, ?_, ?_, ?_, ?_⟩
  · rw [r1]; exact r2
  · rw [r1]; exact r3
  · rw [g1]; exact g2
  · rw [g1]; exact g3
  · rw [b1]; exact b2
  · rw [b1]; exact b3

/-- The witness of amended C14: the three colours with red channels 85, 86,
86. -/
theorem averageColor_mean_witness :
    ∃ c, averageColor [⟨85, 0, 0, 255⟩, ⟨86, 0, 0, 255⟩, ⟨86, 0, 0, 255⟩] = .ok c ∧
      c.A = 255 ∧ c.R.val = 86 ∧ c.G.val = 0 ∧ c.B.val = 0 := by
  obtain ⟨c, h, hA, hR, hG, hB, _⟩ := averageColor_mean
    [⟨85, 0, 0, 255⟩, ⟨86, 0, 0, 255⟩, ⟨86, 0, 0, 255⟩] (by simp) (by simp)
  exact ⟨c, h, hA, hR.trans (by decide), hG.trans (by decide), hB.trans (by decide)⟩

/-! ## Totality of parseColor -/

theorem parseUintLoop_error : ∀ (s : List Char) (n : Nat) (e : Err),
    parseUintLoop s n = .error e → e = .parseUintSyntax ∨ e = .parseUintRange := by
  intro s
  induction s with
  | nil => intro n e h; simp [parseUintLoop] at h
  | cons c cs ih =>
    intro n e h
    unfold parseUintLoop at h
    split at h
    · left; injection h with h; exact h.symm
    · split_ifs at h
      · right; injection h with h; exact h.symm
      · exact ih _ e h

theorem parseComponent_error (hexCode : List Char) (chunkSize i : Nat)
    (hc : 0 < chunkSize) (hi : (i + 1) * chunkSize ≤ hexCode.length) (e : Err)
    (h : parseComponent hexCode chunkSize i = .error e) :
    e = .parseUintSyntax ∨ e = .parseUintRange := by
  have hl : ((hexCode.drop (i * chunkSize)).take chunkSize).length = chunkSize := by
    rw [List.length_take, List.length_drop]
    have : (i + 1) * chunkSize = i * chunkSize + chunkSize := by ring
    omega
  unfold parseComponent padComponent at h
  simp only [hl] at h
  by_cases h1 : chunkSize = 1
  · simp only [h1, if_true] at h
    split at h
    · rename_i e2 he
      injection h with h
      subst h
      unfold ParseUint at he
      split_ifs at he
      · left; injection he with he; exact he.symm
      · exact parseUintLoop_error _ _ _ he
    · injection h
  · have h2 : 2 ≤ chunkSize := by omega
    simp only [if_neg h1, if_pos h2] at h
    split at h
    · rename_i e2 he
      injection h with h
      subst h
      unfold ParseUint at he
      split_ifs at he
      · left; injection he with he; exact he.symm
      · exact parseUintLoop_error _ _ _ he
    · injection h

/-- On a non-empty string parseColor does not panic: an error it returns is
the format error or an error of strconv.ParseUint. -/
theorem parseColor_error_of_nonempty (hexCode : List Char) (hne : hexCode ≠ []) (e : Err)
    (h : parseColor hexCode = .error e) :
    e = .invalidColorLength ∨ e = .parseUintSyntax ∨ e = .parseUintRange := by
  have hpos : 0 < hexCode.length := List.length_pos.2 hne
  unfold parseColor at h
  by_cases h3 : hexCode.length % 3 ≠ 0
  · rw [if_pos h3] at h
    left; injection h with h; exact h.symm
  · rw [if_neg h3] at h
    right
    have hc : 0 < hexCode.length / 3 := by omega
    have hb : ∀ i, i < 3 → (i + 1) * (hexCode.length / 3) ≤ hexCode.length := by
      intro i hi
      have : (i + 1) * (hexCode.length / 3) ≤ 3 * (hexCode.length / 3) :=
        Nat.mul_le_mul_right _ (by omega)
      omega
    simp only at h
    split at h
    · rename_i e0 h0
      injection h with h
      subst h
      exact parseComponent_error hexCode _ 0 hc (hb 0 (by decide)) _ h0
    · split at h
      · rename_i e1 h1
        injection h with h
        subst h
        exact parseComponent_error hexCode _ 1 hc (hb 1 (by decide)) _ h1
      · split at h
        · rename_i e2 h2
          injection h with h
          subst h
          exact parseComponent_error hexCode _ 2 hc (hb 2 (by decide)) _ h2
        · injection h

/-- C19 on the code: on the empty string, whose length 0 is a multiple of 3,
parseColor takes empty chunks and padComponent slices c[0:2] out of range:
a run-time panic, neither a colour nor an error. -/
theorem parseColor_empty_panics :
    padComponent "".toList = .error .panicSliceBounds ∧
    parseComponent "".toList 0 0 = .error .panicSliceBounds ∧
    parseColor "".toList = .error .panicSliceBounds := by
  decide

/-! ## The window of detectEdge -/

theorem pushWindow_ne_nil (w : List Color) (c : Color) : pushWindow w c ≠ [] := by
  unfold pushWindow
  simp only
  split_ifs with h
  · intro h2
    have := congrArg List.length h2
    simp only [List.length_take, List.length_drop, List.length_append, List.length_cons,
      List.length_nil] at this h
    omega
  · simp

theorem windowAt_ne_nil (img : Image) (xStart yStart xStep yStep : Int) (n : Nat) :
    windowAt img xStart yStart xStep yStep n ≠ [] := by
  cases n with
  | zero => simp [windowAt]
  | succ n => exact pushWindow_ne_nil _ _

/-- The loop of detectEdge carries `windowAt`: when the loop condition holds
and no edge is found at the steps before n, detectEdge continues from pixel n
of the ray with the window `windowAt n`. -/
theorem detectEdge_window (cfg : Config) (img : Image)
    (xStart xEnd yStart yEnd xStep yStep : Int) (n : Nat)
    (hcond : ∀ i : Nat, i < n →
      xStart + i * xStep ≠ xEnd - xStep ∧ yStart + i * yStep ≠ yEnd - yStep)
    (hno : ∀ i : Nat, i < n → ∀ avg,
      averageColor (windowAt img xStart yStart xStep yStep i) = .ok avg →
      ¬ distGE (rgba (img.At (xStart + (i + 1 : Nat) * xStep) (yStart + (i + 1 : Nat) * yStep)))
        avg cfg.edgeThreshold) :
    ∀ fuel, detectEdge cfg (n + fuel) img xStart xEnd yStart yEnd xStep yStep
      = detectEdgeLoop cfg img xEnd yEnd xStep yStep fuel
          (xStart + n * xStep) (yStart + n * yStep)
          (windowAt img xStart yStart xStep yStep n) := by
  induction n with
  | zero =>
    intro fuel
    simp [detectEdge, windowAt]
  | succ n ih =>
    intro fuel
    have h := ih (fun i hi => hcond i (by omega)) (fun i hi => hno i (by omega)) (fuel + 1)
    have e : n + 1 + fuel = n + (fuel + 1) := by omega
    rw [e, h, detectEdgeLoop, if_pos (hcond n (by omega))]
    have hne := windowAt_ne_nil img xStart yStart xStep yStep n
    have hlen : (windowAt img xStart yStart xStep yStep n).length ≠ 0 := by
      intro h0
      exact hne (List.length_eq_zero.1 h0)
    obtain ⟨avg, havg⟩ : ∃ avg, averageColor (windowAt img xStart yStart xStep yStep n)
        = .ok avg := by
      unfold averageColor
      simp only [if_neg hlen]
      exact ⟨_, rfl⟩
    have hn := hno n (by omega) avg havg
    have e1 : xStart + (n : Int) * xStep + xStep = xStart + ((n + 1 : Nat) : Int) * xStep := by
      push_cast; ring
    have e2 : yStart + (n : Int) * yStep + yStep = yStart + ((n + 1 : Nat) : Int) * yStep := by
      push_cast; ring
    simp only [havg, e1, e2, if_neg hn, windowAt]

/-- C16 on the code: on the gradient ray of greys 0, 10, 20, ... the window
after the 4 pixels 0, 10, 20, 30 is [10, 20], not the last three [10, 20, 30]:
the slice colors[len-3 : len-1] drops the newest sample with the oldest.  The
pixel 50 is then compared with the average 23 of the window [10, 20, 40] and
reported as an edge at threshold 1/10, while it is below the threshold from
the average 30 of the last three pixels [20, 30, 40]. -/
theorem detectEdge_window_not_trailing :
    windowAt gradientImage 0 1 1 0 2 = [grey 0, grey 10, grey 20] ∧
    windowAt gradientImage 0 1 1 0 3 = [grey 10, grey 20] ∧
    windowAt gradientImage 0 1 1 0 4 = [grey 10, grey 20, grey 40] ∧
    averageColor [grey 10, grey 20, grey 40] = .ok (grey 23) ∧
    averageColor [grey 20, grey 30, grey 40] = .ok (grey 30) ∧
    ¬ distGE (grey 50) (grey 30) defaultConfig.edgeThreshold ∧
    detectEdge defaultConfig 12 gradientImage 0 11 1 3 1 0 = some (.ok (4, 1, grey 23)) := by
  decide!

/-! ## The pixels read by the scans -/

theorem detectEdgeLoop_congr (cfg : Config) (img1 img2 : Image) (xEnd yEnd xs ys : Int) :
    ∀ (fuel : Nat) (x y : Int) (w : List Color),
      (∀ i : Nat, 1 ≤ i →
        img1.At (x + i * xs) (y + i * ys) = img2.At (x + i * xs) (y + i * ys)) →
      detectEdgeLoop cfg img1 xEnd yEnd xs ys fuel x y w
        = detectEdgeLoop cfg img2 xEnd yEnd xs ys fuel x y w := by
  intro fuel
  induction fuel with
  | zero => intro x y w _; rfl
  | succ f ih =>
    intro x y w h
    have h1 : img1.At (x + xs) (y + ys) = img2.At (x + xs) (y + ys) := by
      simpa using h 1 (le_refl _)
    have hrec := ih (x + xs) (y + ys) (pushWindow w (rgba (img2.At (x + xs) (y + ys))))
      (fun i hi => by
        have := h (i + 1) (by omega)
        push_cast at this
        have e1 : x + xs + (i : Int) * xs = x + ((i : Int) + 1) * xs := by ring
        have e2 : y + ys + (i : Int) * ys = y + ((i : Int) + 1) * ys := by ring
        rw [e1, e2]
        exact this)
    simp only [detectEdgeLoop, h1, hrec]

theorem detectEdge_congr (cfg : Config) (fuel : Nat) (img1 img2 : Image)
    (xStart xEnd yStart yEnd xs ys : Int)
    (h : ∀ i : Nat, img1.At (xStart + i * xs) (yStart + i * ys)
      = img2.At (xStart + i * xs) (yStart + i * ys)) :
    detectEdge cfg fuel img1 xStart xEnd yStart yEnd xs ys
      = detectEdge cfg fuel img2 xStart xEnd yStart yEnd xs ys := by
  have h0 : img1.At xStart yStart = img2.At xStart yStart := by simpa using h 0
  unfold detectEdge
  rw [h0]
  exact detectEdgeLoop_congr cfg img1 img2 xEnd yEnd xs ys fuel xStart yStart _
    (fun i _ => h i)

theorem detectEdgeByQuarters_congr (cfg : Config) (fuel : Nat) (img1 img2 : Image)
    (xStart xEnd yStart yEnd xs ys xInc yInc : Int)
    (h : ∀ k : Int, (k = 1 ∨ k = 2 ∨ k = 3) → ∀ i : Nat,
      img1.At (xInc * k + xStart + i * xs) (yInc * k + yStart + i * ys)
        = img2.At (xInc * k + xStart + i * xs) (yInc * k + yStart + i * ys)) :
    detectEdgeByQuarters cfg fuel img1 xStart xEnd yStart yEnd xs ys xInc yInc
      = detectEdgeByQuarters cfg fuel img2 xStart xEnd yStart yEnd xs ys xInc yInc := by
  have h1 := detectEdge_congr cfg fuel img1 img2 (xInc * 1 + xStart) xEnd (yInc * 1 + yStart)
    yEnd xs ys (h 1 (Or.inl rfl))
  have h2 := detectEdge_congr cfg fuel img1 img2 (xInc * 2 + xStart) xEnd (yInc * 2 + yStart)
    yEnd xs ys (h 2 (Or.inr (Or.inl rfl)))
  have h3 := detectEdge_congr cfg fuel img1 img2 (xInc * 3 + xStart) xEnd (yInc * 3 + yStart)
    yEnd xs ys (h 3 (Or.inr (Or.inr rfl)))
  simp only [detectEdgeByQuarters, h1, h2, h3]

/-- C17 as stated fails: the bordered 12 x 10 image and the same image with
pixel (10, 4) turned white agree on the rows 10/4 = 2, 10/2 = 5, 3*10/4 = 7
(and on 3*(10/4) = 6) and on the columns 12/4 = 3, 12/2 = 6, 3*12/4 = 9, and
detectBorder returns different clip rectangles on them: row 4 = 2*(10/4) is
scanned, row 5 is not. -/
theorem quarter_scan_counterexample :
    (borderedImage 12 10 1 white black).Bounds = ⟨⟨0, 0⟩, ⟨12, 10⟩⟩ ∧
    notchedImage.Bounds = ⟨⟨0, 0⟩, ⟨12, 10⟩⟩ ∧
    (∀ x y : Int, (y = 10 / 4 ∨ y = 10 / 2 ∨ y = 3 * 10 / 4 ∨ y = 3 * (10 / 4) ∨
        x = 12 / 4 ∨ x = 12 / 2 ∨ x = 3 * 12 / 4) →
      notchedImage.At x y = (borderedImage 12 10 1 white black).At x y) ∧
    detectBorder defaultConfig 12 (borderedImage 12 10 1 white black)
      = some (.ok (⟨⟨0, 0⟩, ⟨11, 9⟩⟩, white)) ∧
    detectBorder defaultConfig 12 notchedImage = some (.ok (⟨⟨0, 0⟩, ⟨10, 9⟩⟩, white)) := by
  refine ⟨rfl, rfl, ?_, by decide!, by decide!⟩
  intro x y h
  have hne : ¬ (x = 10 ∧ y = 4) := by omega
  simp only [notchedImage, if_neg hne]

/-! ## The clip rectangle of a successful detection -/

theorem detectEdgeLoop_ok (cfg : Config) (img : Image) (xEnd yEnd xs ys : Int) :
    ∀ (fuel : Nat) (x y : Int) (w : List Color) (x' y' : Int) (c : Color),
      detectEdgeLoop cfg img xEnd yEnd xs ys fuel x y w = some (.ok (x', y', c)) →
      ∃ n : Nat, x' = x + n * xs ∧ y' = y + n * ys ∧
        ∀ i : Nat, i ≤ n → x + i * xs ≠ xEnd - xs ∧ y + i * ys ≠ yEnd - ys := by
  intro fuel
  induction fuel with
  | zero => intro x y w x' y' c h; simp [detectEdgeLoop] at h
  | succ f ih =>
    intro x y w x' y' c h
    unfold detectEdgeLoop at h
    split_ifs at h with hc
    · simp only at h
      split at h
      · simp at h
      · split_ifs at h with hd
        · simp only [Option.some.injEq, Except.ok.injEq, Prod.mk.injEq] at h
          refine ⟨0, by simp [h.1], by simp [h.2.1], fun i hi => ?_⟩
          have : i = 0 := by omega
          subst this
          simpa using hc
        · obtain ⟨n, hx, hy, hn⟩ := ih _ _ _ _ _ _ h
          refine ⟨n + 1, by rw [hx]; push_cast; ring, by rw [hy]; push_cast; ring,
            fun i hi => ?_⟩
          rcases Nat.eq_zero_or_pos i with rfl | hpos
          · simpa using hc
          · obtain ⟨j, rfl⟩ : ∃ j, i = j + 1 := ⟨i - 1, by omega⟩
            have := hn j (by omega)
            push_cast
            have e1 : x + ((j : Int) + 1) * xs = x + xs + j * xs := by ring
            have e2 : y + ((j : Int) + 1) * ys = y + ys + j * ys := by ring
            rw [e1, e2]
            exact this
    · simp at h

theorem detectEdge_ok (cfg : Config) (fuel : Nat) (img : Image)
    (xStart xEnd yStart yEnd xs ys x' y' : Int) (c : Color)
    (h : detectEdge cfg fuel img xStart xEnd yStart yEnd xs ys = some (.ok (x', y', c))) :
    Walk xStart xEnd xs x' ∧ Walk yStart yEnd ys y' := by
  obtain ⟨n, hx, hy, hn⟩ := detectEdgeLoop_ok cfg img xEnd yEnd xs ys fuel _ _ _ _ _ _ h
  exact ⟨⟨n, hx, fun i hi => (hn i hi).1⟩, ⟨n, hy, fun i hi => (hn i hi).2⟩⟩

theorem walk_up {a e v : Int} (h : Walk a e 1 v) (hae : a ≤ e - 1) : a ≤ v ∧ v ≤ e - 2 := by
  obtain ⟨n, hv, hn⟩ := h
  refine ⟨by omega, ?_⟩
  by_contra hc
  have := hn (e - 1 - a).toNat (by omega)
  omega

theorem walk_down {a e v : Int} (h : Walk a e (-1) v) (hae : e + 1 ≤ a) :
    e + 2 ≤ v ∧ v ≤ a := by
  obtain ⟨n, hv, hn⟩ := h
  refine ⟨?_, by omega⟩
  by_contra hc
  have := hn (a - (e + 1)).toNat (by omega)
  omega

theorem walk_still {a e v : Int} (h : Walk a e 0 v) : v = a ∧ a ≠ e := by
  obtain ⟨n, hv, hn⟩ := h
  have := hn 0 (Nat.zero_le _)
  constructor <;> omega

theorem average_three (a b c : Int) : average [a, b, c] = .ok ((a + b + c).tdiv 3) := by
  simp [average, List.foldl]

theorem quarterResult_ok {x1 y1 x2 y2 x3 y3 x y : Int} {c1 c2 c3 c : Color}
    (h : quarterResult x1 y1 c1 x2 y2 c2 x3 y3 c3 = .ok (x, y, c)) :
    x = (x1 + x2 + x3).tdiv 3 ∧ y = (y1 + y2 + y3).tdiv 3 := by
  simp only [quarterResult, average_three] at h
  split at h
  · simp at h
  · simp only [Except.ok.injEq, Prod.mk.injEq] at h
    exact ⟨h.1.symm, h.2.1.symm⟩

theorem detectEdgeByQuarters_ok (cfg : Config) (fuel : Nat) (img : Image)
    (xStart xEnd yStart yEnd xs ys xInc yInc x y : Int) (c : Color)
    (h : detectEdgeByQuarters cfg fuel img xStart xEnd yStart yEnd xs ys xInc yInc
      = some (.ok (x, y, c))) :
    ∃ x1 y1 x2 y2 x3 y3 : Int,
      x = (x1 + x2 + x3).tdiv 3 ∧ y = (y1 + y2 + y3).tdiv 3 ∧
      Walk (xInc * 1 + xStart) xEnd xs x1 ∧ Walk (yInc * 1 + yStart) yEnd ys y1 ∧
      Walk (xInc * 2 + xStart) xEnd xs x2 ∧ Walk (yInc * 2 + yStart) yEnd ys y2 ∧
      Walk (xInc * 3 + xStart) xEnd xs x3 ∧ Walk (yInc * 3 + yStart) yEnd ys y3 := by
  unfold detectEdgeByQuarters at h
  split at h
  · simp at h
  · simp at h
  · rename_i x1 y1 c1 h1
    split at h
    · simp at h
    · simp at h
    · rename_i x2 y2 c2 h2
      split at h
      · simp at h
      · simp at h
      · rename_i x3 y3 c3 h3
        obtain ⟨w1, v1⟩ := detectEdge_ok _ _ _ _ _ _ _ _ _ _ _ _ h1
        obtain ⟨w2, v2⟩ := detectEdge_ok _ _ _ _ _ _ _ _ _ _ _ _ h2
        obtain ⟨w3, v3⟩ := detectEdge_ok _ _ _ _ _ _ _ _ _ _ _ _ h3
        simp only [Option.some.injEq] at h
        obtain ⟨ex, ey⟩ := quarterResult_ok h
        exact ⟨x1, y1, x2, y2, x3, y3, ex, ey, w1, v1, w2, v2, w3, v3⟩

theorem rect_wellformed (x0 y0 x1 y1 : Int) :
    (Rect x0 y0 x1 y1).Min.X ≤ (Rect x0 y0 x1 y1).Max.X ∧
    (Rect x0 y0 x1 y1).Min.Y ≤ (Rect x0 y0 x1 y1).Max.Y ∧
    (Rect x0 y0 x1 y1).Min.X = min x0 x1 ∧ (Rect x0 y0 x1 y1).Max.X = max x0 x1 ∧
    (Rect x0 y0 x1 y1).Min.Y = min y0 y1 ∧ (Rect x0 y0 x1 y1).Max.Y = max y0 y1 := by
  unfold Rect
  by_cases hx : x0 > x1 <;> by_cases hy : y0 > y1 <;> simp [hx, hy] <;> omega

/-- A successful detectBorder is four successful quarter scans, and its clip
rectangle is the `image.Rect` of their four coordinates. -/
theorem detectBorder_ok (cfg : Config) (fuel : Nat) (img : Image) (r : Rectangle) (c : Color)
    (h : detectBorder cfg fuel img = some (.ok (r, c))) :
    ∃ (left yl right yr xt top xb bottom : Int) (lc rc tc bc : Color),
      r = Rect left top right bottom ∧
      detectEdgeByQuarters cfg fuel img 0 (img.Bounds.Max.X - 1) 0 (img.Bounds.Max.Y - 1)
        1 0 0 (img.Bounds.Max.Y.tdiv 4) = some (.ok (left, yl, lc)) ∧
      detectEdgeByQuarters cfg fuel img (img.Bounds.Max.X - 1) 0 0 (img.Bounds.Max.Y - 1)
        (-1) 0 0 (img.Bounds.Max.Y.tdiv 4) = some (.ok (right, yr, rc)) ∧
      detectEdgeByQuarters cfg fuel img 0 (img.Bounds.Max.X - 1) 0 (img.Bounds.Max.Y - 1)
        0 1 (img.Bounds.Max.X.tdiv 4) 0 = some (.ok (xt, top, tc)) ∧
      detectEdgeByQuarters cfg fuel img 0 (img.Bounds.Max.X - 1) (img.Bounds.Max.Y - 1) 0
        0 (-1) (img.Bounds.Max.X.tdiv 4) 0 = some (.ok (xb, bottom, bc)) := by
  unfold detectBorder at h
  simp only at h
  split at h
  · simp at h
  · simp at h
  · rename_i left yl lc hL
    split at h
    · simp at h
    · simp at h
    · rename_i right yr rc hR
      split at h
      · simp at h
      · simp at h
      · rename_i xt top tc hT
        split at h
        · simp at h
        · simp at h
        · rename_i xb bottom bc hB
          split at h
          · simp at h
          · simp only [Option.some.injEq, Except.ok.injEq, Prod.mk.injEq] at h
            exact ⟨left, yl, right, yr, xt, top, xb, bottom, lc, rc, tc, bc, h.1.symm,
              hL, hR, hT, hB⟩

/-- C15: on every image on which detectBorder succeeds, the returned
rectangle has Min.X ≤ Max.X and Min.Y ≤ Max.Y. -/
theorem detectBorder_rect_wellformed (cfg : Config) (fuel : Nat) (img : Image)
    (r : Rectangle) (c : Color) (h : detectBorder cfg fuel img = some (.ok (r, c))) :
    r.Min.X ≤ r.Max.X ∧ r.Min.Y ≤ r.Max.Y := by
  obtain ⟨left, _, right, _, _, top, _, bottom, _, _, _, _, hr, _⟩ :=
    detectBorder_ok cfg fuel img r c h
  rw [hr]
  exact ⟨(rect_wellformed left top right bottom).1, (rect_wellformed left top right bottom).2.1⟩

/-- The witness of C15: the bordered 20 x 28 image, whose clip rectangle is
(2, 2)-(17, 25). -/
theorem detectBorder_rect_wellformed_witness :
    detectBorder defaultConfig 3 (borderedImage 20 28 3 white black)
      = some (.ok (⟨⟨2, 2⟩, ⟨17, 25⟩⟩, white)) ∧
    (⟨⟨2, 2⟩, ⟨17, 25⟩⟩ : Rectangle).Min.X ≤ (⟨⟨2, 2⟩, ⟨17, 25⟩⟩ : Rectangle).Max.X ∧
    (⟨⟨2, 2⟩, ⟨17, 25⟩⟩ : Rectangle).Min.Y ≤ (⟨⟨2, 2⟩, ⟨17, 25⟩⟩ : Rectangle).Max.Y :=
  ⟨by decide!,
   detectBorder_rect_wellformed defaultConfig 3 (borderedImage 20 28 3 white black)
    ⟨⟨2, 2⟩, ⟨17, 25⟩⟩ white (by decide!)⟩

theorem tdiv_three_bounds (lo hi a b c : Int) (hlo : 0 ≤ lo)
    (ha : lo ≤ a ∧ a ≤ hi) (hb : lo ≤ b ∧ b ≤ hi) (hc : lo ≤ c ∧ c ≤ hi) :
    lo ≤ (a + b + c).tdiv 3 ∧ (a + b + c).tdiv 3 ≤ hi := by
  rw [Int.tdiv_eq_ediv (by omega) (by decide)]
  omega

/-- C18: on a W x H image with bounds origin (0, 0) and at least one pixel
on which detectBorder succeeds, W ≥ 3, H ≥ 3 and the clip rectangle lies in
[0, W-1] x [0, H-1], so every source pixel (Min.X + x, Min.Y + y) read by the
non-rotated copy loop is inside the image. -/
theorem detectBorder_clip_inside (cfg : Config) (fuel : Nat) (img : Image) (W H : Int)
    (r : Rectangle) (c : Color) (hb : img.Bounds = ⟨⟨0, 0⟩, ⟨W, H⟩⟩)
    (hW : 1 ≤ W) (hH : 1 ≤ H) (h : detectBorder cfg fuel img = some (.ok (r, c))) :
    3 ≤ W ∧ 3 ≤ H ∧ 0 ≤ r.Min.X ∧ r.Max.X ≤ W - 1 ∧ 0 ≤ r.Min.Y ∧ r.Max.Y ≤ H - 1 ∧
    ∀ x y : Int, 0 ≤ x → x < r.Max.X - r.Min.X → 0 ≤ y → y < r.Max.Y - r.Min.Y →
      (Point.mk (r.Min.X + x) (r.Min.Y + y)).In img.Bounds := by
  obtain ⟨left, yl, right, yr, xt, top, xb, bottom, lc, rc, tc, bc, hr, hL, hR, hT, hB⟩ :=
    detectBorder_ok cfg fuel img r c h
  have eW : W.tdiv 4 = W / 4 := Int.tdiv_eq_ediv (by omega) (by decide)
  have eH : H.tdiv 4 = H / 4 := Int.tdiv_eq_ediv (by omega) (by decide)
  simp only [hb, eW, eH] at hL hR hT hB
  obtain ⟨l1, ly1, l2, ly2, l3, ly3, el, _, wl1, vl1, wl2, vl2, wl3, vl3⟩ :=
    detectEdgeByQuarters_ok _ _ _ _ _ _ _ _ _ _ _ _ _ _ hL
  obtain ⟨r1, ry1, r2, ry2, r3, ry3, er, _, wr1, _, wr2, _, wr3, _⟩ :=
    detectEdgeByQuarters_ok _ _ _ _ _ _ _ _ _ _ _ _ _ _ hR
  obtain ⟨tx1, t1, tx2, t2, tx3, t3, _, et, vt1, wt1, vt2, wt2, vt3, wt3⟩ :=
    detectEdgeByQuarters_ok _ _ _ _ _ _ _ _ _ _ _ _ _ _ hT
  obtain ⟨bx1, b1, bx2, b2, bx3, b3, _, eb, _, wb1, _, wb2, _, wb3⟩ :=
    detectEdgeByQuarters_ok _ _ _ _ _ _ _ _ _ _ _ _ _ _ hB
  -- the loop tests on the fixed coordinate exclude W = 1 and H = 1
  have nW := (walk_still vt1).2
  have nH := (walk_still vl1).2
  have hW2 : 2 ≤ W := by omega
  have hH2 : 2 ≤ H := by omega
  -- the walks along the scan axis
  have bl1 := walk_up wl1 (by omega)
  have bl2 := walk_up wl2 (by omega)
  have bl3 := walk_up wl3 (by omega)
  have br1 := walk_down wr1 (by omega)
  have br2 := walk_down wr2 (by omega)
  have br3 := walk_down wr3 (by omega)
  have bt1 := walk_up wt1 (by omega)
  have bt2 := walk_up wt2 (by omega)
  have bt3 := walk_up wt3 (by omega)
  have bb1 := walk_down wb1 (by omega)
  have bb2 := walk_down wb2 (by omega)
  have bb3 := walk_down wb3 (by omega)
  have hW3 : 3 ≤ W := by omega
  have hH3 : 3 ≤ H := by omega
  have hl := tdiv_three_bounds 0 (W - 3) l1 l2 l3 (le_refl _) (by omega) (by omega) (by omega)
  have hrr := tdiv_three_bounds 2 (W - 1) r1 r2 r3 (by decide) (by omega) (by omega) (by omega)
  have ht := tdiv_three_bounds 0 (H - 3) t1 t2 t3 (le_refl _) (by omega) (by omega) (by omega)
  have hbb := tdiv_three_bounds 2 (H - 1) b1 b2 b3 (by decide) (by omega) (by omega) (by omega)
  rw [← el] at hl
  rw [← er] at hrr
  rw [← et] at ht
  rw [← eb] at hbb
  obtain ⟨_, _, mx, Mx, my, My⟩ := rect_wellformed left top right bottom
  rw [← hr] at mx Mx my My
  have c1 : 0 ≤ r.Min.X := by rw [mx]; exact le_min hl.1 (by omega)
  have c2 : r.Max.X ≤ W - 1 := by rw [Mx]; exact max_le (by omega) hrr.2
  have c3 : 0 ≤ r.Min.Y := by rw [my]; exact le_min ht.1 (by omega)
  have c4 : r.Max.Y ≤ H - 1 := by rw [My]; exact max_le (by omega) hbb.2
  refine ⟨hW3, hH3, c1, c2, c3, c4, fun x y hx0 hx1 hy0 hy1 => ?_⟩
  rw [hb]
  simp only [Point.In]
  omega

/-- The witness of C18: the bordered 20 x 28 image, whose clip rectangle is
(2, 2)-(17, 25). -/
theorem detectBorder_clip_inside_witness :
    (3 : Int) ≤ 20 ∧ (3 : Int) ≤ 28 ∧
    0 ≤ (⟨⟨2, 2⟩, ⟨17, 25⟩⟩ : Rectangle).Min.X ∧
    (⟨⟨2, 2⟩, ⟨17, 25⟩⟩ : Rectangle).Max.X ≤ 20 - 1 ∧
    0 ≤ (⟨⟨2, 2⟩, ⟨17, 25⟩⟩ : Rectangle).Min.Y ∧
    (⟨⟨2, 2⟩, ⟨17, 25⟩⟩ : Rectangle).Max.Y ≤ 28 - 1 :=
  have h := detectBorder_clip_inside defaultConfig 3 (borderedImage 20 28 3 white black) 20 28
    ⟨⟨2, 2⟩, ⟨17, 25⟩⟩ white rfl (by decide) (by decide) (by decide!)
  ⟨h.1, h.2.1, h.2.2.1, h.2.2.2.1, h.2.2.2.2.1, h.2.2.2.2.2.1⟩

/-! ## The positions of the quarter scans -/

theorem detectEdgeByQuarters_eq_scans (cfg : Config) (fuel : Nat) (img : Image)
    (xStart xEnd yStart yEnd xs ys xInc yInc : Int) :
    detectEdgeByQuarters cfg fuel img xStart xEnd yStart yEnd xs ys xInc yInc
      = averageOfScans
          (detectEdge cfg fuel img (xInc * 1 + xStart) xEnd (yInc * 1 + yStart) yEnd xs ys)
          (detectEdge cfg fuel img (xInc * 2 + xStart) xEnd (yInc * 2 + yStart) yEnd xs ys)
          (detectEdge cfg fuel img (xInc * 3 + xStart) xEnd (yInc * 3 + yStart) yEnd xs ys) := by
  unfold detectEdgeByQuarters averageOfScans
  rcases detectEdge cfg fuel img (xInc * 1 + xStart) xEnd (yInc * 1 + yStart) yEnd xs ys
    with _ | ⟨e1 | ⟨x1, y1, c1⟩⟩ <;> rfl

theorem detectBorder_eq_sides (cfg : Config) (fuel : Nat) (img : Image) :
    detectBorder cfg fuel img
      = sidesResult
          (detectEdgeByQuarters cfg fuel img 0 (img.Bounds.Max.X - 1) 0 (img.Bounds.Max.Y - 1)
            1 0 0 (img.Bounds.Max.Y.tdiv 4))
          (detectEdgeByQuarters cfg fuel img (img.Bounds.Max.X - 1) 0 0 (img.Bounds.Max.Y - 1)
            (-1) 0 0 (img.Bounds.Max.Y.tdiv 4))
          (detectEdgeByQuarters cfg fuel img 0 (img.Bounds.Max.X - 1) 0 (img.Bounds.Max.Y - 1)
            0 1 (img.Bounds.Max.X.tdiv 4) 0)
          (detectEdgeByQuarters cfg fuel img 0 (img.Bounds.Max.X - 1) (img.Bounds.Max.Y - 1) 0
            0 (-1) (img.Bounds.Max.X.tdiv 4) 0) := by
  unfold detectBorder sidesResult
  rfl

/-- The equation between detectBorder and the border detection by quarter
scans. -/
theorem detectBorder_eq_quarterScanBorder (cfg : Config) (fuel : Nat) (img : Image)
    (W H : Int) (hW : 0 ≤ W) (hH : 0 ≤ H) (hb : img.Bounds.Max = ⟨W, H⟩) :
    detectBorder cfg fuel img = quarterScanBorder cfg fuel img W H := by
  have eW : W.tdiv 4 = W / 4 := Int.tdiv_eq_ediv hW (by decide)
  have eH : H.tdiv 4 = H / 4 := Int.tdiv_eq_ediv hH (by decide)
  have hX : img.Bounds.Max.X = W := by rw [hb]
  have hY : img.Bounds.Max.Y = H := by rw [hb]
  have n1 : ∀ a : Int, a * 1 + 0 = a := fun a => by ring
  have n2 : ∀ a : Int, a * 2 + 0 = 2 * a := fun a => by ring
  have n3 : ∀ a : Int, a * 3 + 0 = 3 * a := fun a => by ring
  have z1 : ∀ a : Int, (0 : Int) * 1 + a = a := fun a => by ring
  have z2 : ∀ a : Int, (0 : Int) * 2 + a = a := fun a => by ring
  have z3 : ∀ a : Int, (0 : Int) * 3 + a = a := fun a => by ring
  rw [detectBorder_eq_sides]
  simp only [detectEdgeByQuarters_eq_scans, hX, hY, eW, eH, quarterScanBorder, scanThree,
    scanRows, scanColumns, n1, n2, n3, z1, z2, z3, mul_zero]

/-- A scan with yStep = 0 runs along its row: it returns the row it started
on, and reads pixels of that row only. -/
theorem detectEdge_along_row (cfg : Config) (fuel : Nat) (img : Image)
    (xStart xEnd y yEnd xs : Int) :
    (∀ x' y' c, detectEdge cfg fuel img xStart xEnd y yEnd xs 0 = some (.ok (x', y', c)) →
      y' = y) ∧
    (∀ img2 : Image, (∀ x, img.At x y = img2.At x y) →
      detectEdge cfg fuel img xStart xEnd y yEnd xs 0
        = detectEdge cfg fuel img2 xStart xEnd y yEnd xs 0) := by
  refine ⟨fun x' y' c h => ?_, fun img2 h => ?_⟩
  · exact (walk_still (detectEdge_ok _ _ _ _ _ _ _ _ _ _ _ _ h).2).1
  · apply detectEdge_congr
    intro i
    have e : y + (i : Int) * 0 = y := by ring
    rw [e]
    exact h _

/-- A scan with xStep = 0 runs along its column: it returns the column it
started on, and reads pixels of that column only. -/
theorem detectEdge_along_column (cfg : Config) (fuel : Nat) (img : Image)
    (x xEnd yStart yEnd ys : Int) :
    (∀ x' y' c, detectEdge cfg fuel img x xEnd yStart yEnd 0 ys = some (.ok (x', y', c)) →
      x' = x) ∧
    (∀ img2 : Image, (∀ y, img.At x y = img2.At x y) →
      detectEdge cfg fuel img x xEnd yStart yEnd 0 ys
        = detectEdge cfg fuel img2 x xEnd yStart yEnd 0 ys) := by
  refine ⟨fun x' y' c h => ?_, fun img2 h => ?_⟩
  · exact (walk_still (detectEdge_ok _ _ _ _ _ _ _ _ _ _ _ _ h).1).1
  · apply detectEdge_congr
    intro i
    have e : x + (i : Int) * 0 = x := by ring
    rw [e]
    exact h _


/-- C17, amended: for a W x H image, detectBorder is the border detection by
quarter scans: the three scans for the left and right edges run along the
rows q, 2q, 3q with q = H/4 (integer division), the three scans for the top
and bottom edges along the columns p, 2p, 3p with p = W/4, each scan staying
on its row or column, so that an image with the same bounds that agrees on
these rows and columns gets the same result.  The rows are H/4, H/2, 3H/4
when 4 divides H, the columns W/4, W/2, 3W/4 when 4 divides W. -/
theorem quarter_scan_positions (cfg : Config) (fuel : Nat) (img : Image) (W H : Int)
    (hW : 0 ≤ W) (hH : 0 ≤ H) (hb : img.Bounds.Max = ⟨W, H⟩) :
    detectBorder cfg fuel img = quarterScanBorder cfg fuel img W H ∧
    (∀ (y xStart xEnd yEnd xs x' y' : Int) (c : Color),
      detectEdge cfg fuel img xStart xEnd y yEnd xs 0 = some (.ok (x', y', c)) → y' = y) ∧
    (∀ (x xEnd yStart yEnd ys x' y' : Int) (c : Color),
      detectEdge cfg fuel img x xEnd yStart yEnd 0 ys = some (.ok (x', y', c)) → x' = x) ∧
    (∀ img2 : Image, img2.Bounds.Max = ⟨W, H⟩ →
      (∀ x y : Int, (y ∈ scanRows H ∨ x ∈ scanColumns W) → img.At x y = img2.At x y) →
      detectBorder cfg fuel img = detectBorder cfg fuel img2) ∧
    (4 ∣ H → scanRows H = [H / 4, H / 2, 3 * H / 4]) ∧
    (4 ∣ W → scanColumns W = [W / 4, W / 2, 3 * W / 4]) := by
  refine ⟨detectBorder_eq_quarterScanBorder cfg fuel img W H hW hH hb,
    fun y xStart xEnd yEnd xs x' y' c h =>
      (detectEdge_along_row cfg fuel img xStart xEnd y yEnd xs).1 x' y' c h,
    fun x xEnd yStart yEnd ys x' y' c h =>
      (detectEdge_along_column cfg fuel img x xEnd yStart yEnd ys).1 x' y' c h,
    fun img2 hb2 hag => ?_, fun h => ?_, fun h => ?_⟩
  · rw [detectBorder_eq_quarterScanBorder cfg fuel img W H hW hH hb,
      detectBorder_eq_quarterScanBorder cfg fuel img2 W H hW hH hb2]
    have rows : ∀ (y xStart xEnd yEnd xs : Int), y ∈ scanRows H →
        detectEdge cfg fuel img xStart xEnd y yEnd xs 0
          = detectEdge cfg fuel img2 xStart xEnd y yEnd xs 0 :=
      fun y xStart xEnd yEnd xs hy =>
        (detectEdge_along_row cfg fuel img xStart xEnd y yEnd xs).2 img2
          (fun x => hag x y (Or.inl hy))
    have cols : ∀ (x xEnd yStart yEnd ys : Int), x ∈ scanColumns W →
        detectEdge cfg fuel img x xEnd yStart yEnd 0 ys
          = detectEdge cfg fuel img2 x xEnd yStart yEnd 0 ys :=
      fun x xEnd yStart yEnd ys hx =>
        (detectEdge_along_column cfg fuel img x xEnd yStart yEnd ys).2 img2
          (fun y => hag x y (Or.inr hx))
    have r1 : H / 4 ∈ scanRows H := by simp [scanRows]
    have r2 : 2 * (H / 4) ∈ scanRows H := by simp [scanRows]
    have r3 : 3 * (H / 4) ∈ scanRows H := by simp [scanRows]
    have c1 : W / 4 ∈ scanColumns W := by simp [scanColumns]
    have c2 : 2 * (W / 4) ∈ scanColumns W := by simp [scanColumns]
    have c3 : 3 * (W / 4) ∈ scanColumns W := by simp [scanColumns]
    simp only [quarterScanBorder, scanThree, scanRows, scanColumns, rows _ _ _ _ _ r1,
      rows _ _ _ _ _ r2, rows _ _ _ _ _ r3, cols _ _ _ _ _ c1, cols _ _ _ _ _ c2,
      cols _ _ _ _ _ c3]
  · have e1 : 2 * (H / 4) = H / 2 := by omega
    have e2 : 3 * (H / 4) = 3 * H / 4 := by omega
    simp only [scanRows, e1, e2]
  · have e1 : 2 * (W / 4) = W / 2 := by omega
    have e2 : 3 * (W / 4) = 3 * W / 4 := by omega
    simp only [scanColumns, e1, e2]

/-- The witness of amended C17: the bordered 12 x 10 image is scanned along
the rows 2, 4, 6 and the columns 3, 6, 9, and gets the same result as the
image with pixel (10, 3) turned white, which lies off them. -/
theorem quarter_scan_positions_witness :
    detectBorder defaultConfig 12 (borderedImage 12 10 1 white black)
      = quarterScanBorder defaultConfig 12 (borderedImage 12 10 1 white black) 12 10 ∧
    scanRows 10 = [2, 4, 6] ∧ scanColumns 12 = [3, 6, 9] ∧
    detectBorder defaultConfig 12 (borderedImage 12 10 1 white black)
      = detectBorder defaultConfig 12 speckImage :=
  have h := quarter_scan_positions defaultConfig 12 (borderedImage 12 10 1 white black) 12 10
    (by decide) (by decide) rfl
  ⟨h.1, by decide, by decide, h.2.2.2.1 speckImage rfl (fun x y hxy => by
    have hne : ¬ (x = 10 ∧ y = 3) := by
      rintro ⟨rfl, rfl⟩
      revert hxy
      decide
    simp only [speckImage, if_neg hne])⟩

/-! ## float64 rounding -/

theorem log2Fuel_bounds : ∀ (fuel n : Nat), 1 ≤ n → n ≤ fuel →
    2 ^ log2Fuel fuel n ≤ n ∧ n < 2 ^ (log2Fuel fuel n + 1) := by
  intro fuel
  induction fuel with
  | zero => intro n h1 h2; omega
  | succ f ih =>
    intro n h1 h2
    unfold log2Fuel
    by_cases h : n < 2
    · have : n = 1 := by omega
      subst this
      simp
    · rw [if_neg h]
      obtain ⟨a, b⟩ := ih (n / 2) (by omega) (by omega)
      rw [pow_succ, pow_succ]
      constructor <;> omega

theorem floorLog2_bounds (x : ℚ) (hx : 0 < x) :
    (2 : ℚ) ^ floorLog2 x ≤ x ∧ x < (2 : ℚ) ^ (floorLog2 x + 1) := by
  have hn : 0 < x.num := Rat.num_pos.2 hx
  have hn1 : 1 ≤ x.num.natAbs := by omega
  have hd1 : 1 ≤ x.den := x.den_pos
  obtain ⟨na, nb⟩ := log2Fuel_bounds _ _ hn1 (le_refl _)
  obtain ⟨da, db⟩ := log2Fuel_bounds _ _ hd1 (le_refl _)
  have hxe : x = (x.num.natAbs : ℚ) / (x.den : ℚ) := by
    have h1 : ((x.num.natAbs : Int) : ℚ) = (x.num : ℚ) := by
      rw [Int.natAbs_of_nonneg hn.le]
    have h2 : ((x.num.natAbs : Nat) : ℚ) = ((x.num.natAbs : Int) : ℚ) :=
      (Int.cast_natCast _).symm
    rw [h2, h1]
    exact (Rat.num_div_den x).symm
  have hdq : (0 : ℚ) < x.den := by exact_mod_cast hd1
  have two : (0 : ℚ) < 2 := by norm_num
  -- the bounds on numerator and denominator, as rationals
  have naq : (2 : ℚ) ^ (log2Fuel x.num.natAbs x.num.natAbs : Int) ≤ (x.num.natAbs : ℚ) := by
    rw [zpow_natCast]; exact_mod_cast na
  have nbq : (x.num.natAbs : ℚ) < (2 : ℚ) ^ ((log2Fuel x.num.natAbs x.num.natAbs : Int) + 1) := by
    have : ((log2Fuel x.num.natAbs x.num.natAbs : Int) + 1)
        = ((log2Fuel x.num.natAbs x.num.natAbs + 1 : Nat) : Int) := by push_cast; rfl
    rw [this, zpow_natCast]; exact_mod_cast nb
  have daq : (2 : ℚ) ^ (log2Fuel x.den x.den : Int) ≤ (x.den : ℚ) := by
    rw [zpow_natCast]; exact_mod_cast da
  have dbq : (x.den : ℚ) < (2 : ℚ) ^ ((log2Fuel x.den x.den : Int) + 1) := by
    have : ((log2Fuel x.den x.den : Int) + 1) = ((log2Fuel x.den x.den + 1 : Nat) : Int) := by
      push_cast; rfl
    rw [this, zpow_natCast]; exact_mod_cast db
  unfold floorLog2
  simp only
  generalize (log2Fuel x.num.natAbs x.num.natAbs : Int) = a at naq nbq ⊢
  generalize (log2Fuel x.den x.den : Int) = b at daq dbq ⊢
  have pa : (0 : ℚ) < 2 ^ a := zpow_pos two a
  have pb : (0 : ℚ) < 2 ^ b := zpow_pos two b
  have low : (2 : ℚ) ^ (a - b - 1) ≤ x := by
    have e : (2 : ℚ) ^ (a - b - 1) = 2 ^ a / 2 ^ (b + 1) := by
      rw [show a - b - 1 = a - (b + 1) by ring, zpow_sub₀ two.ne']
    rw [e, hxe]
    exact div_le_div₀ (by positivity) naq hdq dbq.le
  have high : x < (2 : ℚ) ^ (a - b + 1) := by
    have e : (2 : ℚ) ^ (a - b + 1) = 2 ^ (a + 1) / 2 ^ b := by
      rw [show a - b + 1 = a + 1 - b by ring, zpow_sub₀ two.ne']
    rw [e, hxe]
    exact div_lt_div₀ nbq daq (zpow_pos two _).le pb
  split_ifs with h
  · exact ⟨h, high⟩
  · refine ⟨low, ?_⟩
    rw [show a - b - 1 + 1 = a - b by ring]
    exact not_le.1 h

theorem roundHalfEven_err (y : ℚ) : |(roundHalfEven y : ℚ) - y| ≤ 1 / 2 := by
  have h1 := Int.floor_le y
  have h2 := Int.lt_floor_add_one y
  unfold roundHalfEven
  rw [abs_le]
  split_ifs with a b c
  · constructor <;> linarith
  · push_cast; constructor <;> linarith
  · have : y - ⌊y⌋ = 1 / 2 := le_antisymm (not_lt.1 b) (not_lt.1 a)
    constructor <;> linarith
  · have : y - ⌊y⌋ = 1 / 2 := le_antisymm (not_lt.1 b) (not_lt.1 a)
    push_cast; constructor <;> linarith

/-- The relative error of float64 rounding is at most 2^-53. -/
theorem f64_err (x : ℚ) (hx : 0 < x) : |f64 x - x| ≤ x / 2 ^ 53 := by
  have habs : |x| = x := abs_of_pos hx
  obtain ⟨lo, _⟩ := floorLog2_bounds x hx
  have two : (0 : ℚ) < 2 := by norm_num
  unfold f64
  rw [if_neg hx.ne', habs]
  generalize floorLog2 x = k at lo
  have pe : (0 : ℚ) < 2 ^ (k - 52) := zpow_pos two _
  have hr := roundHalfEven_err (x / 2 ^ (k - 52))
  have e1 : (roundHalfEven (x / 2 ^ (k - 52)) : ℚ) * 2 ^ (k - 52) - x
      = ((roundHalfEven (x / 2 ^ (k - 52)) : ℚ) - x / 2 ^ (k - 52)) * 2 ^ (k - 52) := by
    field_simp
  rw [e1, abs_mul, abs_of_pos pe]
  have e2 : (2 : ℚ) ^ (k - 52) = 2 ^ k / 2 ^ 52 := by
    rw [zpow_sub₀ two.ne']
    norm_cast
  calc |(roundHalfEven (x / 2 ^ (k - 52)) : ℚ) - x / 2 ^ (k - 52)| * 2 ^ (k - 52)
      ≤ 1 / 2 * 2 ^ (k - 52) := mul_le_mul_of_nonneg_right hr pe.le
    _ = 2 ^ k / 2 ^ 53 := by rw [e2]; ring
    _ ≤ x / 2 ^ 53 := div_le_div_of_nonneg_right lo (by positivity)


theorem f64_bounds (x : ℚ) (hx : 0 < x) :
    x * (1 - 1 / 2 ^ 53) ≤ f64 x ∧ f64 x ≤ x * (1 + 1 / 2 ^ 53) := by
  have h := abs_le.1 (f64_err x hx)
  constructor <;> linarith [h.1, h.2]

/-- C20 as stated fails on the float64 computation.  With the float64 ratio
r = f64(5/7) of the flags 2.5 and 3.5 and the wider 500 x 600 clip, the
quotient 500 / r lies below 700 and rounds to 700.0, so calcHeight = 700
exceeds calcWidth / r.  With the flags 9 and 7 and the wider 9 x 6 clip,
r = f64(9/7) lies above 9/7, the quotient 9 / r rounds below 7 and calcHeight
is 6, so 9 / (9/7) - 1 < calcHeight fails for the ratio 9/7 of the flags. -/
theorem aspectCorrect_within_one_counterexample :
    f64 (5 / 7) = 6433713753386423 / 9007199254740992 ∧
    f64 (((500 : Int) : ℚ) / ((600 : Int) : ℚ)) > f64 (5 / 7) ∧
    aspectCorrect64 (f64 (5 / 7)) 500 600 = (500, 700) ∧
    ¬ ((700 : ℚ) ≤ 500 / f64 (5 / 7)) ∧
    f64 (((9 : Int) : ℚ) / ((6 : Int) : ℚ)) > f64 (9 / 7) ∧
    aspectCorrect64 (f64 (9 / 7)) 9 6 = (9, 6) ∧
    ¬ ((9 : ℚ) / (9 / 7) - 1 < 6) := by
  decide!

/-- C20, amended: the corrected size is within one pixel of the desired ratio
up to the relative rounding error 2^-53 of float64.  For measured width and
height in [1, 2^53), a float64 ratio r ≥ 2^-1022 with height * r and
width / r below 2^63 (the range in which float64 and `f64` agree and the
conversion to int is the floor): calcHeight * r * (1 - 2^-53) - 1 < calcWidth
≤ calcHeight * r * (1 + 2^-53) when the rounded width / height is below r,
calcWidth / r * (1 - 2^-53) - 1 < calcHeight ≤ calcWidth / r * (1 + 2^-53)
when it is above r, and calcWidth * (1 - 2^-53) ≤ calcHeight * r ≤
calcWidth * (1 + 2^-53) when it equals r. -/
theorem aspectCorrect64_within_one (r : ℚ) (width height : Int)
    (hw : 0 < width) (hh : 0 < height) (hr : 0 < r)
    (_hw53 : width < 2 ^ 53) (_hh53 : height < 2 ^ 53) (_hr64 : f64 r = r)
    (_hrlo : 1 / 2 ^ 1022 ≤ r) (_hp : (height : ℚ) * r < 2 ^ 63)
    (_hq : (width : ℚ) / r < 2 ^ 63) :
    (f64 ((width : ℚ) / (height : ℚ)) < r →
      ((aspectCorrect64 r width height).2 : ℚ) * r * (1 - 1 / 2 ^ 53) - 1
        < (aspectCorrect64 r width height).1 ∧
      ((aspectCorrect64 r width height).1 : ℚ)
        ≤ (aspectCorrect64 r width height).2 * r * (1 + 1 / 2 ^ 53)) ∧
    (f64 ((width : ℚ) / (height : ℚ)) > r →
      ((aspectCorrect64 r width height).1 : ℚ) / r * (1 - 1 / 2 ^ 53) - 1
        < (aspectCorrect64 r width height).2 ∧
      ((aspectCorrect64 r width height).2 : ℚ)
        ≤ (aspectCorrect64 r width height).1 / r * (1 + 1 / 2 ^ 53)) ∧
    (f64 ((width : ℚ) / (height : ℚ)) = r →
      ((aspectCorrect64 r width height).1 : ℚ) * (1 - 1 / 2 ^ 53)
        ≤ (aspectCorrect64 r width height).2 * r ∧
      ((aspectCorrect64 r width height).2 : ℚ) * r
        ≤ (aspectCorrect64 r width height).1 * (1 + 1 / 2 ^ 53)) := by
  have hhq : (0 : ℚ) < height := by exact_mod_cast hh
  have hwq : (0 : ℚ) < width := by exact_mod_cast hw
  refine ⟨fun h => ?_, fun h => ?_, fun h => ?_⟩
  · simp only [aspectCorrect64, if_pos h]
    obtain ⟨lo, hi⟩ := f64_bounds ((height : ℚ) * r) (mul_pos hhq hr)
    have f1 := Int.floor_le (f64 ((height : ℚ) * r))
    have f2 := Int.lt_floor_add_one (f64 ((height : ℚ) * r))
    constructor <;> linarith
  · have hn : ¬ (f64 ((width : ℚ) / (height : ℚ)) < r) := not_lt.2 h.le
    simp only [aspectCorrect64, if_neg hn, if_pos h]
    obtain ⟨lo, hi⟩ := f64_bounds ((width : ℚ) / r) (div_pos hwq hr)
    have f1 := Int.floor_le (f64 ((width : ℚ) / r))
    have f2 := Int.lt_floor_add_one (f64 ((width : ℚ) / r))
    constructor <;> linarith
  · have hn : ¬ (f64 ((width : ℚ) / (height : ℚ)) < r) := by rw [h]; exact lt_irrefl _
    have hn2 : ¬ (f64 ((width : ℚ) / (height : ℚ)) > r) := by rw [h]; exact lt_irrefl _
    simp only [aspectCorrect64, if_neg hn, if_neg hn2]
    obtain ⟨lo, hi⟩ := f64_bounds ((width : ℚ) / (height : ℚ)) (div_pos hwq hhq)
    rw [h] at lo hi
    have e : (width : ℚ) / height * height = width := by field_simp
    constructor
    · have := mul_le_mul_of_nonneg_right lo hhq.le
      nlinarith
    · have := mul_le_mul_of_nonneg_right hi hhq.le
      nlinarith

/-- The witness of amended C20: the float64 ratio of the flags 2.5 and 3.5
and the wider 500 x 600 clip, with calcWidth 500 and calcHeight 700. -/
theorem aspectCorrect64_within_one_witness :
    aspectCorrect64 (6433713753386423 / 9007199254740992) 500 600 = (500, 700) ∧
    ((aspectCorrect64 (6433713753386423 / 9007199254740992) 500 600).1 : ℚ)
        / (6433713753386423 / 9007199254740992) * (1 - 1 / 2 ^ 53) - 1
      < (aspectCorrect64 (6433713753386423 / 9007199254740992) 500 600).2 ∧
    ((aspectCorrect64 (6433713753386423 / 9007199254740992) 500 600).2 : ℚ)
      ≤ (aspectCorrect64 (6433713753386423 / 9007199254740992) 500 600).1
        / (6433713753386423 / 9007199254740992) * (1 + 1 / 2 ^ 53) :=
  ⟨by decide!,
   (aspectCorrect64_within_one (6433713753386423 / 9007199254740992) 500 600
    (by decide) (by decide) (by decide!) (by decide) (by decide) (by decide!) (by decide!)
    (by decide!) (by decide!)).2.1 (by decide!)⟩


/-- The value `f64 x` has a significand of 53 bits: it is m * 2^e with
2^52 ≤ m ≤ 2^53 at the exponent e = floorLog2 x - 52. -/
theorem f64_significand (x : ℚ) (hx : 0 < x) :
    ∃ m : Int, f64 x = (m : ℚ) * (2 : ℚ) ^ (floorLog2 x - 52) ∧ 2 ^ 52 ≤ m ∧ m ≤ 2 ^ 53 := by
  have habs : |x| = x := abs_of_pos hx
  obtain ⟨lo, hi⟩ := floorLog2_bounds x hx
  have two : (0 : ℚ) < 2 := by norm_num
  refine ⟨roundHalfEven (x / 2 ^ (floorLog2 x - 52)), ?_, ?_, ?_⟩
  · unfold f64
    rw [if_neg hx.ne', habs]
  all_goals
    generalize floorLog2 x = k at lo hi
    have pe : (0 : ℚ) < 2 ^ (k - 52) := zpow_pos two _
    have e2 : (2 : ℚ) ^ (k - 52) = 2 ^ k / 2 ^ 52 := by
      rw [zpow_sub₀ two.ne']
      norm_cast
    have e3 : (2 : ℚ) ^ (k + 1) = 2 ^ k * 2 := by
      rw [zpow_add₀ two.ne', zpow_one]
    have pk : (0 : ℚ) < 2 ^ k := zpow_pos two _
    have ylo : (2 : ℚ) ^ 52 ≤ x / 2 ^ (k - 52) := by
      rw [e2, le_div_iff₀ (by positivity)]
      field_simp
      nlinarith
    have yhi : x / 2 ^ (k - 52) < (2 : ℚ) ^ 53 := by
      rw [e2, div_lt_iff₀ (by positivity)]
      rw [e3] at hi
      field_simp
      nlinarith
    have hr := abs_le.1 (roundHalfEven_err (x / 2 ^ (k - 52)))
  · have : ((2 ^ 52 - 1 : Int) : ℚ) < (roundHalfEven (x / 2 ^ (k - 52)) : ℚ) := by
      push_cast
      linarith [hr.1]
    have := Int.cast_lt.1 this
    omega
  · have : (roundHalfEven (x / 2 ^ (k - 52)) : ℚ) < ((2 ^ 53 + 1 : Int) : ℚ) := by
      push_cast
      linarith [hr.2]
    have := Int.cast_lt.1 this
    omega

end CardResize
